import Mathlib

/-!
# Verification of the sequential state-machine strategy
A shallow embedding of `src/proptest/src/strategy/state_machine.rs` (the
`Sequential` strategy and its `SequentialValueTree`) and of
`src/proptest-state-machine/src/strategy/observed_vec.rs` (the observed
transition sequence), together with proofs about the shrink/complicate
state machine.

Modelling conventions:
* The interior mutability (`Cell`) of the Rust code is modelled by plain
  functional record updates; every `&mut self` method becomes a function
  `tree -> result × tree`.
* `VarBitSet` is modelled as a `List Bool` of fixed width with
  `test`/`set`/`clear`/`count`/`saturated` operations.
* A transition generator handle (`TransitionValueTree`, a
  `proptest::strategy::ValueTree`) is opaque: it is a value of an
  arbitrary type `VT` together with `current`/`simplify`/`complicate`
  operations (`VTOps`), where the Rust `&mut self` methods returning
  `bool` become `VT -> Bool × VT`.
* The mutually recursive `simplify`/`try_simplify` methods (whose inner
  `while` loop is not structurally terminating — see the non-termination
  theorem for claim C10) are embedded as a fuel-indexed small-step
  interpreter `runSimplify` over a mode tag; `none` means the source
  code did not return within the given fuel (or hit the
  `panic!("Unexpected shrink state")` line, which is unreachable from a
  `ShrinkTransition` cursor).
* Rust's panicking index operator `xs[i]` is modelled by `List.getD i
  default`; under the length invariants maintained by the code the
  default is never used.
-/

set_option maxHeartbeats 1000000

namespace StateMachine

/-- The tri-state life-cycle marker of a slot
(`enum TransitionState` in the source). -/
inductive TransitionState where
  | Current
  | SimplifyRejected
  | ComplicateRejected
deriving DecidableEq, Repr, Inhabited

/-- The shrink cursor (`enum Shrink` in the source). -/
inductive Shrink where
  | DeleteTransition (ix : Nat)
  | ShrinkTransition (ix : Nat)
deriving DecidableEq, Repr

open TransitionState Shrink

/-- The operations of an opaque transition generator handle
(the `ValueTree` trait of the transition strategy): `current()`,
`simplify()` and `complicate()`, with `&mut self` made explicit. -/
structure VTOps (VT T : Type) where
  vtCurrent : VT → T
  vtSimplify : VT → Bool × VT
  vtComplicate : VT → Bool × VT

/-! ## Bitsets (`VarBitSet`) -/

/-- `VarBitSet::test` -/
def bitTest (l : List Bool) (i : Nat) : Bool := l.getD i false

/-- `VarBitSet::set` -/
def bitSet (l : List Bool) (i : Nat) : List Bool := l.set i true

/-- `VarBitSet::clear` -/
def bitClear (l : List Bool) (i : Nat) : List Bool := l.set i false

/-- `VarBitSet::count`: the number of set bits. -/
def bitCount (l : List Bool) : Nat := (l.filter (fun b => b)).length

/-- `VarBitSet::saturated`: all `n` bits set. -/
def saturated (n : Nat) : List Bool := List.replicate n true

/-! ## The tree -/

/-- The generated value tree for a sequential state machine
(`struct SequentialValueTree` in the source).  The function-pointer
fields `preconditions` and `next` are kept as function fields. -/
structure SequentialValueTree (State T VT : Type) where
  initial_state : State
  preconditions : State → T → Bool
  next : State → T → State
  transitions : List VT
  included_transitions : List Bool
  shrinkable_transitions : List Bool
  acceptable_transitions : List (TransitionState × T)
  min_size : Nat
  max_ix : Nat
  shrink : Shrink
  prev_shrink : Option Shrink

variable {State T VT : Type}

/-- Setting the marker cell of slot `ix`
(`self.acceptable_transitions[ix].0.set(m)`). -/
def setMarkerAt [Inhabited T] (acc : List (TransitionState × T)) (ix : Nat)
    (m : TransitionState) : List (TransitionState × T) :=
  acc.set ix (m, (acc.getD ix default).2)

/-- The marker of slot `i`, as an observation for the theorems. -/
def markerAt [Inhabited T] (t : SequentialValueTree State T VT) (i : Nat) :
    Option TransitionState :=
  (t.acceptable_transitions.get? i).map Prod.fst

/-- Worker for `current_at`: the `enumerate`/`filter`/`map` iterator
chain of the source, fused into one recursion carrying the running
index `i`. -/
def currentAtGo (ops : VTOps VT T) (inc : List Bool) (trs : List VT)
    (oix : Option Nat) : Nat → List (TransitionState × T) → List T
  | _, [] => []
  | i, (_, tr) :: rest =>
    let tail := currentAtGo ops inc trs oix (i + 1) rest
    if bitTest inc i then
      (match oix with
       | some ix =>
         if i = ix then
           (match trs.get? ix with
            | some vt => ops.vtCurrent vt
            | none => tr)
         else tr
       | none => tr) :: tail
    else tail

/-- `SequentialValueTree::current_at`: the currently included acceptable
transitions; when `oix = some ix`, the transition at index `ix` is taken
from its generator's current value instead of its cached value. -/
def current_at (ops : VTOps VT T) (t : SequentialValueTree State T VT)
    (oix : Option Nat) : List T :=
  currentAtGo ops t.included_transitions t.transitions oix 0 t.acceptable_transitions

/-- Does the marker mean simplification/complication has been rejected? -/
def isRejected : TransitionState → Bool
  | SimplifyRejected => true
  | ComplicateRejected => true
  | Current => false

/-- Worker for `all_rejected`. -/
def allRejectedGo (inc : List Bool) : Nat → List (TransitionState × T) → Bool
  | _, [] => true
  | i, (st, _) :: rest =>
    (!(bitTest inc i) || isRejected st) && allRejectedGo inc (i + 1) rest

/-- `SequentialValueTree::all_rejected`: all included slots have marker
`SimplifyRejected` or `ComplicateRejected`. -/
def all_rejected (t : SequentialValueTree State T VT) : Bool :=
  allRejectedGo t.included_transitions 0 t.acceptable_transitions

/-- Replaying precondition-check-then-advance over a transition list
(the loop body of `check_acceptable`). -/
def replayOk (pre : State → T → Bool) (nxt : State → T → State) :
    State → List T → Bool
  | _, [] => true
  | s, tr :: rest => if pre s tr then replayOk pre nxt (nxt s tr) rest else false

/-- `SequentialValueTree::check_acceptable`. -/
def check_acceptable (ops : VTOps VT T) (t : SequentialValueTree State T VT)
    (oix : Option Nat) : Bool :=
  replayOk t.preconditions t.next t.initial_state (current_at ops t oix)

/-- `SequentialValueTree::next_shrink_transition`: advance to the next
shrink position, wrapping at the end of the list. -/
def next_shrink_transition (t : SequentialValueTree State T VT) (ix : Nat) : Shrink :=
  if ix = t.max_ix then ShrinkTransition 0 else ShrinkTransition (ix + 1)

/-! ## `try_to_find_acceptable` (the rotation search) -/

/-- Cache slot `j`'s current generator value as its acceptable value
with marker `Current`
(`self.acceptable_transitions[j] = (Cell::new(Current), self.transitions[j].current())`). -/
def cacheCurrent [Inhabited T] [Inhabited VT] (ops : VTOps VT T)
    (t : SequentialValueTree State T VT) (j : Nat) :
    SequentialValueTree State T VT :=
  let v := ops.vtCurrent (t.transitions.getD j default)
  { t with acceptable_transitions := t.acceptable_transitions.set j (Current, v) }

/-- The loop of `try_to_find_acceptable`.  The source loop terminates by
wrapping around and returning when it is back at `start`; here the
remaining number of iterations is carried as explicit fuel (the caller
supplies `max_ix + 1`, which is exactly enough to wrap once for any
in-range `start`; for the out-of-range starts on which the source loop
would not terminate the fuel runs out and `(false, t)` is returned). -/
def ttfaGo [Inhabited T] [Inhabited VT] (ops : VTOps VT T)
    (t : SequentialValueTree State T VT) (start : Nat) :
    Nat → Nat → Bool × SequentialValueTree State T VT
  | 0, _ => (false, t)
  | Nat.succ fuel, cur =>
    if bitTest t.included_transitions cur && check_acceptable ops t (some cur) then
      (true, cacheCurrent ops t cur)
    else
      let nxt := if cur = t.max_ix then 0 else cur + 1
      if nxt = start then (false, t) else ttfaGo ops t start fuel nxt

/-- `SequentialValueTree::try_to_find_acceptable`: wraparound scan from
`start` for an included slot whose current generator value replays
acceptably. -/
def try_to_find_acceptable [Inhabited T] [Inhabited VT] (ops : VTOps VT T)
    (t : SequentialValueTree State T VT) (start : Nat) :
    Bool × SequentialValueTree State T VT :=
  ttfaGo ops t start (t.max_ix + 1) start

/-! ## `simplify`/`try_simplify` as a small-step interpreter -/

/-- Control point of the `simplify`/`try_simplify` recursion:
the body of `simplify()` (`simplifyCall`), the `DeleteTransition` block
at the top of `try_simplify()` (`tryShrink`), and its `while
ShrinkTransition` loop (`shrinkWhile`). -/
inductive SMode where
  | simplifyCall
  | tryShrink
  | shrinkWhile
deriving DecidableEq, Repr

/-- The speculative-delete block of `try_simplify` (reached when the
cursor is `DeleteTransition ix` and the inclusion count is not yet at
`min_size`): clear slot `ix`, remember the move, advance the cursor,
then either commit (replay clean) or restore the slot, forget the move
and retry deletion at the advanced cursor. -/
def deleteStep [Inhabited T] [Inhabited VT] (ops : VTOps VT T)
    (t : SequentialValueTree State T VT) (ix : Nat) :
    (Bool × SequentialValueTree State T VT) ⊕
      (SMode × SequentialValueTree State T VT) :=
  let c := if ix = 0 then ShrinkTransition 0 else DeleteTransition (ix - 1)
  let t1 : SequentialValueTree State T VT :=
    { t with included_transitions := bitClear t.included_transitions ix,
             prev_shrink := some (DeleteTransition ix),
             shrink := c }
  if check_acceptable ops t1 none then
    Sum.inl (true,
      { t1 with shrinkable_transitions := bitClear t1.shrinkable_transitions ix })
  else
    -- undo the delete and try again (`return self.try_simplify()`)
    Sum.inr (SMode.tryShrink,
      { t1 with included_transitions := bitSet t1.included_transitions ix,
                prev_shrink := none })

/-- The body of the shrink-phase loop for an included slot whose marker
is not `SimplifyRejected`: ask the slot's generator to simplify; on
refusal clear it from the shrinkable set and advance; on acceptance
replay with the new value, either committing it as `Current` or marking
the slot `SimplifyRejected` and re-entering `simplify()`. -/
def shrinkSlot [Inhabited T] [Inhabited VT] (ops : VTOps VT T)
    (t : SequentialValueTree State T VT) (ix : Nat) :
    (Bool × SequentialValueTree State T VT) ⊕
      (SMode × SequentialValueTree State T VT) :=
  let res := ops.vtSimplify (t.transitions.getD ix default)
  let t' : SequentialValueTree State T VT :=
    { t with transitions := t.transitions.set ix res.2 }
  if res.1 then
    let t2 : SequentialValueTree State T VT :=
      { t' with prev_shrink := some (ShrinkTransition ix) }
    if check_acceptable ops t2 (some ix) then
      let acc' := t2.acceptable_transitions.set ix (Current, ops.vtCurrent res.2)
      Sum.inl (true, { t2 with acceptable_transitions := acc' })
    else
      -- simplification rejected; `return self.simplify()`
      let acc' := setMarkerAt t2.acceptable_transitions ix SimplifyRejected
      Sum.inr (SMode.simplifyCall,
        { t2 with acceptable_transitions := acc',
                  shrink := next_shrink_transition t2 ix })
  else
    Sum.inr (SMode.shrinkWhile,
      { t' with shrinkable_transitions := bitClear t'.shrinkable_transitions ix,
                shrink := next_shrink_transition t' ix })

/-- One step of the `simplify`/`try_simplify` state machine.
`some (Sum.inl (b, t'))` means the source returns `b` with the tree
mutated to `t'`; `some (Sum.inr (m, t'))` means control continues at
point `m` with the tree mutated to `t'`; `none` is the unreachable
`panic!("Unexpected shrink state")`. -/
def stepF [Inhabited T] [Inhabited VT] (ops : VTOps VT T) :
    SMode → SequentialValueTree State T VT →
    Option ((Bool × SequentialValueTree State T VT) ⊕
            (SMode × SequentialValueTree State T VT))
  | SMode.simplifyCall, t =>
    -- fn simplify(&mut self) -> bool
    if all_rejected t then
      match t.prev_shrink with
      | some (ShrinkTransition ix) =>
        some (Sum.inl (try_to_find_acceptable ops t ix))
      | _ => some (Sum.inl (false, t))
    else
      some (Sum.inr (SMode.tryShrink, t))
  | SMode.tryShrink, t =>
    -- the `if let DeleteTransition(ix) = self.shrink` block of try_simplify
    match t.shrink with
    | DeleteTransition ix =>
      if bitCount t.included_transitions = t.min_size then
        -- can't delete any more, move on to shrinking
        some (Sum.inr (SMode.shrinkWhile, { t with shrink := ShrinkTransition 0 }))
      else
        some (deleteStep ops t ix)
    | ShrinkTransition _ => some (Sum.inr (SMode.shrinkWhile, t))
  | SMode.shrinkWhile, t =>
    -- the `while let ShrinkTransition(ix) = self.shrink` loop
    match t.shrink with
    | DeleteTransition _ => none  -- `panic!("Unexpected shrink state")`
    | ShrinkTransition ix =>
      if bitCount t.shrinkable_transitions = 0 then
        some (Sum.inl (false, t))
      else if !(bitTest t.included_transitions ix) then
        -- no use shrinking something we're not including
        some (Sum.inr (SMode.shrinkWhile,
          { t with shrink := next_shrink_transition t ix }))
      else
        match (t.acceptable_transitions.getD ix default).1 with
        | SimplifyRejected =>
          -- already simplified and rejected
          some (Sum.inr (SMode.shrinkWhile,
            { t with shrink := next_shrink_transition t ix }))
        | _ => some (shrinkSlot ops t ix)

/-- Fuel-indexed driver of the `simplify`/`try_simplify` state machine. -/
def runSimplify [Inhabited T] [Inhabited VT] (ops : VTOps VT T) :
    Nat → SMode → SequentialValueTree State T VT →
    Option (Bool × SequentialValueTree State T VT)
  | 0, _, _ => none
  | Nat.succ fuel, m, t =>
    match stepF ops m t with
    | none => none
    | some (Sum.inl r) => some r
    | some (Sum.inr (m', t')) => runSimplify ops fuel m' t'

/-- `ValueTree::simplify` for `SequentialValueTree`, with fuel. -/
def simplifyFuel [Inhabited T] [Inhabited VT] (ops : VTOps VT T) (fuel : Nat)
    (t : SequentialValueTree State T VT) :
    Option (Bool × SequentialValueTree State T VT) :=
  runSimplify ops fuel SMode.simplifyCall t

/-- `SequentialValueTree::try_simplify`, with fuel. -/
def try_simplifyFuel [Inhabited T] [Inhabited VT] (ops : VTOps VT T) (fuel : Nat)
    (t : SequentialValueTree State T VT) :
    Option (Bool × SequentialValueTree State T VT) :=
  runSimplify ops fuel SMode.tryShrink t

/-- `ValueTree::complicate` for `SequentialValueTree`. -/
def complicate [Inhabited T] [Inhabited VT] (ops : VTOps VT T)
    (t : SequentialValueTree State T VT) :
    Bool × SequentialValueTree State T VT :=
  match t.prev_shrink with
  | none => (false, t)
  | some (DeleteTransition ix) =>
    -- undo the last deleted item; can't complicate further
    (true, { t with included_transitions := bitSet t.included_transitions ix,
                    shrinkable_transitions := bitSet t.shrinkable_transitions ix,
                    prev_shrink := none })
  | some (ShrinkTransition ix) =>
    let res := ops.vtComplicate (t.transitions.getD ix default)
    let t' : SequentialValueTree State T VT :=
      { t with transitions := t.transitions.set ix res.2 }
    if res.1 then
      if check_acceptable ops t' (some ix) then
        -- don't unset prev_shrink; we may be able to complicate again
        let acc' := t'.acceptable_transitions.set ix (Current, ops.vtCurrent res.2)
        (true, { t' with acceptable_transitions := acc' })
      else
        let acc' := setMarkerAt t'.acceptable_transitions ix ComplicateRejected
        (false, { t' with acceptable_transitions := acc', prev_shrink := none })
    else
      (false, { t' with prev_shrink := none })

/-! ## Generation (`Strategy::new_tree` for `Sequential`) -/

/-- The generation loop of `new_tree`: consume candidate transition
trees from `proposals` (each `new_tree` call on the transition strategy
yields the next one) until `remaining` transitions satisfying the
precondition at their sampling point have been collected.  A rejected
candidate is skipped — the local-rejection signal makes the runner
resample from the same model state — and `none` models the runner
giving up when its retry budget (here: the proposal stream) runs out. -/
def genLoop (ops : VTOps VT T) (pre : State → T → Bool) (nxt : State → T → State) :
    List VT → State → Nat →
    Option (List VT × List (TransitionState × T) × State)
  | _, s, 0 => some ([], [], s)
  | [], _, Nat.succ _ => none
  | vt :: rest, s, Nat.succ k =>
    let tr := ops.vtCurrent vt
    if pre s tr then
      match genLoop ops pre nxt rest (nxt s tr) k with
      | some (ts, ats, s') => some (vt :: ts, (Current, tr) :: ats, s')
      | none => none
    else
      -- `runner.reject_local(...)`: retry from the same state
      genLoop ops pre nxt rest s (Nat.succ k)

/-- `Strategy::new_tree` for `Sequential`.  The uniformly sampled target
length (`sample_uniform_incl`, which lives outside the modelled core) is
taken as the parameter `max_size`; `initial_state` is the current value
of the init-state strategy's tree.  `max_size = 0` is mapped to `none`:
the source computes `max_size - 1` on a `usize`, which panics there. -/
def new_tree (ops : VTOps VT T) (pre : State → T → Bool)
    (nxt : State → T → State) (initial_state : State) (min_size : Nat)
    (proposals : List VT) (max_size : Nat) :
    Option (SequentialValueTree State T VT) :=
  match genLoop ops pre nxt proposals initial_state max_size with
  | none => none
  | some (ts, ats, _) =>
    match max_size with
    | 0 => none
    | Nat.succ m =>
      some { initial_state := initial_state
             preconditions := pre
             next := nxt
             transitions := ts
             included_transitions := saturated (Nat.succ m)
             shrinkable_transitions := saturated (Nat.succ m)
             acceptable_transitions := ats
             min_size := min_size
             max_ix := m
             shrink := DeleteTransition m
             prev_shrink := none }

/-! ## The observed transition sequence (`observed_vec.rs`) -/

/-- `IntoIter` for `ObservedVec`: the remaining transitions together
with the shared consumption counter (`Arc<AtomicUsize>`, modelled as a
plain counter since there is a single writer). -/
structure ObservedIter (T : Type) where
  seen_counter : Nat
  transitions : List T

/-- `Iterator::next` for `IntoIter`: yields the next transition and
increments the shared counter exactly when an element was yielded. -/
def observedNext (it : ObservedIter T) : Option T × ObservedIter T :=
  match it.transitions with
  | [] => (none, it)
  | x :: rest => (some x, { seen_counter := it.seen_counter + 1, transitions := rest })

/-- Pull `k` elements from the iterator (a consumer iterating the first
`k` transitions). -/
def consumeN : Nat → ObservedIter T → ObservedIter T
  | 0, it => it
  | Nat.succ k, it => consumeN k (observedNext it).2

/-! ## Rotation order (specification-side view of the wraparound scan) -/

/-- Stated from the claim: the visit order of the wraparound rotation
scan — `d` slot indices starting at `cur`, wrapping past `maxIx` back
to `0`. -/
def rotationOrder (maxIx : Nat) : Nat → Nat → List Nat
  | _, 0 => []
  | cur, Nat.succ d =>
    cur :: rotationOrder maxIx (if cur = maxIx then 0 else cur + 1) d

/-- Number of steps the wraparound scan starting at `start` takes from
`cur` until it is back at `start`. -/
def distTo (start maxIx cur : Nat) : Nat :=
  if cur < start then start - cur else maxIx + 1 - cur + start

/-! ## Observed-count truncation (spec-modelled) -/

/-- Keep only the first `m` set bits of a bitset, clearing the rest. -/
def keepFirstIncluded : Nat → List Bool → List Bool
  | _, [] => []
  | m, b :: rest =>
    if b then
      match m with
      | 0 => false :: keepFirstIncluded 0 rest
      | Nat.succ m' => true :: keepFirstIncluded m' rest
    else
      false :: keepFirstIncluded m rest

/-- Modelled from the spec: the observed-count feedback drops every
included slot beyond the first `max k min_size` of them from the
inclusion bitset before the next `simplify()` call, leaving everything
else untouched (the consumer-side plumbing that carries the observed
count `k` back into the tree lives outside the modelled sources). -/
def truncateUnobserved (t : SequentialValueTree State T VT) (k : Nat) :
    SequentialValueTree State T VT :=
  { t with included_transitions :=
      keepFirstIncluded (max k t.min_size) t.included_transitions }

/-! ## Concrete machines used to evaluate the model -/

/-- Precondition accepting every transition (`Nat` states/transitions). -/
def preT : Nat → Nat → Bool := fun _ _ => true

/-- State advance that keeps the model state unchanged. -/
def nxtT : Nat → Nat → Nat := fun s _ => s

/-- Inert generator ops: the current value is the code itself; both
shrinking moves are refused. -/
def opsA : VTOps Nat Nat where
  vtCurrent n := n
  vtSimplify n := (false, n)
  vtComplicate n := (false, n)

/-- Precondition rejecting the transition value `0`. -/
def preL : Nat → Nat → Bool := fun _ tr => tr != 0

/-- State advance keeping the state unchanged (used with `preL`). -/
def nxtL : Nat → Nat → Nat := fun s _ => s

/-- Generator ops over value codes: code `0` has current value `1` and
refuses to simplify; code `1` has current value `1` and simplifies to
code `2`, whose current value `0` violates `preL`. -/
def opsL : VTOps Nat Nat where
  vtCurrent n := match n with | 0 => 1 | 1 => 1 | _ => 0
  vtSimplify n := match n with | 1 => (true, 2) | m => (false, m)
  vtComplicate n := (false, n)

/-- The tree `new_tree opsA preT nxtT 0 1 [5] 1` generates. -/
def w1t0 : SequentialValueTree Nat Nat Nat :=
  { initial_state := 0, preconditions := preT, next := nxtT,
    transitions := [5], included_transitions := [true],
    shrinkable_transitions := [true],
    acceptable_transitions := [(Current, 5)],
    min_size := 1, max_ix := 0,
    shrink := DeleteTransition 0, prev_shrink := none }

/-- A two-slot tree about to try deleting slot 1 (`min_size` 1). -/
def c5t : SequentialValueTree Nat Nat Nat :=
  { initial_state := 0, preconditions := preT, next := nxtT,
    transitions := [5, 6], included_transitions := [true, true],
    shrinkable_transitions := [true, true],
    acceptable_transitions := [(Current, 5), (Current, 6)],
    min_size := 1, max_ix := 1,
    shrink := DeleteTransition 1, prev_shrink := none }

/-- `c5t` after committing the deletion of slot 1. -/
def c5tD : SequentialValueTree Nat Nat Nat :=
  { c5t with
    included_transitions := [true, false],
    shrinkable_transitions := [true, false],
    shrink := DeleteTransition 0,
    prev_shrink := some (DeleteTransition 1) }

/-- A one-slot tree whose only included slot is rejected, with the
remembered move a shrink: the rotation-scan entry configuration. -/
def c6t : SequentialValueTree Nat Nat Nat :=
  { initial_state := 0, preconditions := preT, next := nxtT,
    transitions := [5], included_transitions := [true],
    shrinkable_transitions := [true],
    acceptable_transitions := [(SimplifyRejected, 5)],
    min_size := 1, max_ix := 0,
    shrink := ShrinkTransition 0, prev_shrink := some (ShrinkTransition 0) }

/-- The tree `new_tree opsL preL nxtL 0 1 [0] 1` generates. -/
def c8t0 : SequentialValueTree Nat Nat Nat :=
  { initial_state := 0, preconditions := preL, next := nxtL,
    transitions := [0], included_transitions := [true],
    shrinkable_transitions := [true],
    acceptable_transitions := [(Current, 1)],
    min_size := 1, max_ix := 0,
    shrink := DeleteTransition 0, prev_shrink := none }

/-- `c8t0` after its first (false) `simplify()` call. -/
def c8s1 : SequentialValueTree Nat Nat Nat :=
  { c8t0 with
    shrinkable_transitions := [false],
    shrink := ShrinkTransition 0 }

/-- The tree `new_tree opsL preL nxtL 0 2 [0, 1] 2` generates. -/
def c10t0 : SequentialValueTree Nat Nat Nat :=
  { initial_state := 0, preconditions := preL, next := nxtL,
    transitions := [0, 1], included_transitions := [true, true],
    shrinkable_transitions := [true, true],
    acceptable_transitions := [(Current, 1), (Current, 1)],
    min_size := 2, max_ix := 1,
    shrink := DeleteTransition 1, prev_shrink := none }

/-- The configuration the shrink loop cycles through forever on
`c10t0`: slot 1 is `SimplifyRejected` yet still shrinkable, slot 0
refuses to simplify, and the loop guard only checks that the shrinkable
set is non-empty. -/
def sStar : SequentialValueTree Nat Nat Nat :=
  { c10t0 with
    transitions := [0, 2],
    shrinkable_transitions := [false, true],
    acceptable_transitions := [(Current, 1), (SimplifyRejected, 1)],
    shrink := ShrinkTransition 0,
    prev_shrink := some (ShrinkTransition 1) }

/-- Generator ops over value codes for exercising the marker
life-cycle: `10 -simplify-> 11 -complicate-> 12 -simplify-> 13` on
slot 0 (with `12`, `13` current-value‑invalid) and `20 -simplify-> 21`
on slot 1. -/
def ops9 : VTOps Nat Nat where
  vtCurrent n := match n with | 10 => 1 | 11 => 1 | 20 => 1 | 21 => 1 | _ => 0
  vtSimplify n :=
    match n with
    | 10 => (true, 11) | 12 => (true, 13) | 20 => (true, 21)
    | m => (false, m)
  vtComplicate n := match n with | 11 => (true, 12) | m => (false, m)

/-- The tree `new_tree ops9 preL nxtL 0 2 [10, 20] 2` generates. -/
def c9t0 : SequentialValueTree Nat Nat Nat :=
  { initial_state := 0, preconditions := preL, next := nxtL,
    transitions := [10, 20], included_transitions := [true, true],
    shrinkable_transitions := [true, true],
    acceptable_transitions := [(Current, 1), (Current, 1)],
    min_size := 2, max_ix := 1,
    shrink := DeleteTransition 1, prev_shrink := none }

/-- `c9t0` after a true `simplify()` (slot 0 shrunk and committed). -/
def c9t1 : SequentialValueTree Nat Nat Nat :=
  { c9t0 with
    transitions := [11, 20],
    shrink := ShrinkTransition 0,
    prev_shrink := some (ShrinkTransition 0) }

/-- `c9t1` after a false `complicate()`: slot 0 is now
`ComplicateRejected`. -/
def c9t2 : SequentialValueTree Nat Nat Nat :=
  { c9t0 with
    transitions := [12, 20],
    acceptable_transitions := [(ComplicateRejected, 1), (Current, 1)],
    shrink := ShrinkTransition 0, prev_shrink := none }

/-- `c9t2` after a true `simplify()`: slot 0 went straight from
`ComplicateRejected` to `SimplifyRejected`. -/
def c9t3 : SequentialValueTree Nat Nat Nat :=
  { c9t0 with
    transitions := [13, 21],
    acceptable_transitions := [(SimplifyRejected, 1), (Current, 1)],
    shrink := ShrinkTransition 1,
    prev_shrink := some (ShrinkTransition 1) }

/-! ## Bitset lemmas -/

theorem bitTest_eq (l : List Bool) (i : Nat) : bitTest l i = l[i]?.getD false :=
  List.getD_eq_getElem?_getD l i false

theorem bitTest_lt_of_true {l : List Bool} {i : Nat} (h : bitTest l i = true) :
    i < l.length := by
  by_contra hn
  rw [bitTest_eq, List.getElem?_eq_none (Nat.le_of_not_lt hn)] at h
  simp at h

theorem bitTest_true_iff {l : List Bool} {i : Nat} :
    bitTest l i = true ↔ l[i]? = some true := by
  rw [bitTest_eq]
  cases h : l[i]? with
  | none => simp
  | some b => cases b <;> simp

theorem bitTest_clear_self (l : List Bool) (i : Nat) :
    bitTest (bitClear l i) i = false := by
  rw [bitClear, bitTest_eq, List.getElem?_set]
  by_cases h : i < l.length
  · simp [h]
  · simp [h, List.getElem?_eq_none (Nat.le_of_not_lt h)]

theorem bitTest_clear_ne (l : List Bool) {i j : Nat} (h : i ≠ j) :
    bitTest (bitClear l i) j = bitTest l j := by
  rw [bitClear, bitTest_eq, List.getElem?_set_ne h, bitTest_eq]

theorem bitTest_set_self {l : List Bool} {i : Nat} (h : i < l.length) :
    bitTest (bitSet l i) i = true := by
  rw [bitSet, bitTest_eq, List.getElem?_set]
  simp [h]

theorem bitTest_set_ne (l : List Bool) {i j : Nat} (h : i ≠ j) :
    bitTest (bitSet l i) j = bitTest l j := by
  rw [bitSet, bitTest_eq, List.getElem?_set_ne h, bitTest_eq]

theorem bitTest_set_of_true {l : List Bool} {i j : Nat} (h : bitTest l j = true) :
    bitTest (bitSet l i) j = true := by
  by_cases hij : i = j
  · subst hij
    exact bitTest_set_self (bitTest_lt_of_true h)
  · rw [bitTest_set_ne l hij]
    exact h

theorem set_clear_restore {l : List Bool} {i : Nat} (h : bitTest l i = true) :
    bitSet (bitClear l i) i = l := by
  rw [bitSet, bitClear, List.set_set]
  apply List.ext_getElem?
  intro n
  rw [List.getElem?_set]
  by_cases hn : i = n
  · subst hn
    simp [bitTest_lt_of_true h, (bitTest_true_iff.mp h).symm]
  · simp [hn]

theorem bitCount_nil : bitCount ([] : List Bool) = 0 := rfl

theorem bitCount_cons (b : Bool) (l : List Bool) :
    bitCount (b :: l) = (if b then 1 else 0) + bitCount l := by
  cases b <;> simp [bitCount, List.filter_cons] <;> omega

theorem bitCount_le_length (l : List Bool) : bitCount l ≤ l.length :=
  List.length_filter_le _ _

theorem bitCount_clear_ge (l : List Bool) (i : Nat) :
    bitCount l ≤ bitCount (bitClear l i) + 1 := by
  induction l generalizing i with
  | nil => simp [bitClear, bitCount]
  | cons b rest ih =>
    cases i with
    | zero =>
      show bitCount (b :: rest) ≤ bitCount (false :: rest) + 1
      rw [bitCount_cons, bitCount_cons]
      cases b <;> simp <;> omega
    | succ i =>
      show bitCount (b :: rest) ≤ bitCount (b :: bitClear rest i) + 1
      rw [bitCount_cons, bitCount_cons]
      have := ih i
      omega

theorem bitCount_clear_le (l : List Bool) (i : Nat) :
    bitCount (bitClear l i) ≤ bitCount l := by
  induction l generalizing i with
  | nil => simp [bitClear, bitCount]
  | cons b rest ih =>
    cases i with
    | zero =>
      show bitCount (false :: rest) ≤ bitCount (b :: rest)
      rw [bitCount_cons, bitCount_cons]
      cases b <;> simp <;> omega
    | succ i =>
      show bitCount (b :: bitClear rest i) ≤ bitCount (b :: rest)
      rw [bitCount_cons, bitCount_cons]
      have := ih i
      omega

theorem bitCount_set_ge (l : List Bool) (i : Nat) :
    bitCount l ≤ bitCount (bitSet l i) := by
  induction l generalizing i with
  | nil => simp [bitSet, bitCount]
  | cons b rest ih =>
    cases i with
    | zero =>
      show bitCount (b :: rest) ≤ bitCount (true :: rest)
      rw [bitCount_cons, bitCount_cons]
      cases b <;> simp <;> omega
    | succ i =>
      show bitCount (b :: rest) ≤ bitCount (b :: bitSet rest i)
      rw [bitCount_cons, bitCount_cons]
      have := ih i
      omega

theorem bitCount_saturated (n : Nat) : bitCount (saturated n) = n := by
  induction n with
  | zero => rfl
  | succ n ih =>
    rw [saturated, List.replicate_succ]
    show bitCount (true :: saturated n) = n + 1
    rw [bitCount_cons, ih]
    simp [Nat.add_comm]

theorem bitTest_saturated {n j : Nat} (h : j < n) : bitTest (saturated n) j = true := by
  rw [saturated, bitTest_eq, List.getElem?_replicate]
  simp [h]

theorem length_saturated (n : Nat) : (saturated n).length = n := by
  simp [saturated]

theorem length_bitSet (l : List Bool) (i : Nat) : (bitSet l i).length = l.length :=
  List.length_set l i true

theorem length_bitClear (l : List Bool) (i : Nat) : (bitClear l i).length = l.length :=
  List.length_set l i false

/-! ## Lemmas about `current_at` and `check_acceptable` -/

theorem get?_eq_some_getD {α : Type} [Inhabited α] {l : List α} {i : Nat}
    (h : i < l.length) : l.get? i = some (l.getD i default) := by
  rw [List.get?_eq_getElem?, List.getElem?_eq_getElem h,
    List.getD_eq_getElem?_getD, List.getElem?_eq_getElem h]
  rfl

/-- With no override, `current_at` ignores the generator handles. -/
theorem currentAtGo_none_trs (ops : VTOps VT T) (inc : List Bool)
    (trs1 trs2 : List VT) :
    ∀ (k : Nat) (acc : List (TransitionState × T)),
    currentAtGo ops inc trs1 none k acc = currentAtGo ops inc trs2 none k acc := by
  intro k acc
  induction acc generalizing k with
  | nil => rfl
  | cons p rest ih =>
    cases p with
    | mk m tr =>
      simp only [currentAtGo]
      rw [ih (k + 1)]

/-- An override index below the running index never fires. -/
theorem currentAtGo_some_lt (ops : VTOps VT T) (inc : List Bool) (trs : List VT)
    {ox : Nat} :
    ∀ {k : Nat} (acc : List (TransitionState × T)), ox < k →
    currentAtGo ops inc trs (some ox) k acc = currentAtGo ops inc trs none k acc := by
  intro k acc
  induction acc generalizing k with
  | nil => intro _; rfl
  | cons p rest ih =>
    intro h
    cases p with
    | mk m tr =>
      simp only [currentAtGo]
      rw [if_neg (by omega : ¬ k = ox), ih (by omega)]

/-- Caching a slot's current generator value makes the plain candidate
equal to the overridden one. -/
theorem currentAtGo_set_current (ops : VTOps VT T) (inc : List Bool)
    (trs : List VT) :
    ∀ (acc : List (TransitionState × T)) (k ix : Nat) (m : TransitionState)
      (vt : VT), ix < acc.length → trs.get? (k + ix) = some vt →
    currentAtGo ops inc trs none k (acc.set ix (m, ops.vtCurrent vt)) =
      currentAtGo ops inc trs (some (k + ix)) k acc := by
  intro acc
  induction acc with
  | nil => intro k ix m vt h; simp at h
  | cons p rest ih =>
    intro k ix m vt hlen htrs
    cases p with
    | mk m0 tr0 =>
      cases ix with
      | zero =>
        simp only [List.set, currentAtGo]
        rw [currentAtGo_some_lt ops inc trs rest (by omega)]
        have hk : k + 0 = k := by omega
        rw [hk] at htrs
        rw [List.get?_eq_getElem?] at htrs
        simp [htrs]
      | succ ix' =>
        simp only [List.set, currentAtGo]
        have hne : ¬ k = k + (ix' + 1) := by omega
        have harith : k + 1 + ix' = k + (ix' + 1) := by omega
        rw [if_neg hne]
        have := ih (k + 1) ix' m vt (by simpa using hlen) (by rw [harith]; exact htrs)
        rw [harith] at this
        rw [this]

/-- `current_at` only depends on the cached transition values, not the
markers. -/
theorem currentAtGo_congr_snd (ops : VTOps VT T) (inc : List Bool) (trs : List VT)
    (oix : Option Nat) :
    ∀ (acc1 : List (TransitionState × T)) (k : Nat)
      (acc2 : List (TransitionState × T)),
      acc1.map Prod.snd = acc2.map Prod.snd →
    currentAtGo ops inc trs oix k acc1 = currentAtGo ops inc trs oix k acc2 := by
  intro acc1
  induction acc1 with
  | nil =>
    intro k acc2 h
    cases acc2 with
    | nil => rfl
    | cons q rest2 => simp at h
  | cons p rest ih =>
    intro k acc2 h
    cases acc2 with
    | nil => simp at h
    | cons q rest2 =>
      cases p with
      | mk m tr =>
        cases q with
        | mk m2 tr2 =>
          simp only [List.map] at h
          have h1 : tr = tr2 := (List.cons.injEq _ _ _ _ ▸ h).1
          have h2 : rest.map Prod.snd = rest2.map Prod.snd :=
            (List.cons.injEq _ _ _ _ ▸ h).2
          simp only [currentAtGo]
          rw [h1, ih (k + 1) rest2 h2]

theorem setMarkerAt_map_snd [Inhabited T] :
    ∀ (acc : List (TransitionState × T)) (ix : Nat) (m : TransitionState),
    (setMarkerAt acc ix m).map Prod.snd = acc.map Prod.snd := by
  intro acc
  induction acc with
  | nil => intro ix m; rfl
  | cons p rest ih =>
    intro ix m
    cases ix with
    | zero => cases p; rfl
    | succ ix' =>
      show ((p :: rest).set (ix' + 1) _).map Prod.snd = _
      simp only [List.set, List.map]
      have : (rest.set ix' (m, ((p :: rest).getD (ix' + 1) default).2)).map Prod.snd
           = (setMarkerAt rest ix' m).map Prod.snd := by
        rfl
      rw [this, ih ix' m]

/-- The marker list after a `List.set`. -/
theorem get?_fst_set (acc : List (TransitionState × T)) (ix i : Nat)
    (p : TransitionState × T) :
    ((acc.set ix p).get? i).map Prod.fst =
      if ix = i ∧ ix < acc.length then some p.1
      else (acc.get? i).map Prod.fst := by
  rw [List.get?_eq_getElem?, List.get?_eq_getElem?, List.getElem?_set]
  by_cases h : ix = i
  · subst h
    by_cases hl : ix < acc.length
    · simp [hl]
    · simp only [hl, and_false, if_false]
      rw [List.getElem?_eq_none (by omega)]
      rfl
  · simp [h]

/-- `filterZip bs xs`: the elements of `xs` at positions where `bs` is
true (positions beyond `bs` excluded) — a reformulation of the
include-filter used to reason about `current_at`. -/
def filterZip : List Bool → List T → List T
  | _, [] => []
  | [], _ :: _ => []
  | b :: bs, x :: xs => if b then x :: filterZip bs xs else filterZip bs xs

theorem filterZip_nil_left (xs : List T) : filterZip [] xs = [] := by
  cases xs <;> rfl

theorem currentAtGo_eq_filterZip (ops : VTOps VT T) (inc : List Bool)
    (trs : List VT) :
    ∀ (acc : List (TransitionState × T)) (k : Nat),
    currentAtGo ops inc trs none k acc = filterZip (inc.drop k) (acc.map Prod.snd) := by
  intro acc
  induction acc with
  | nil => intro k; cases inc.drop k <;> rfl
  | cons p rest ih =>
    intro k
    cases p with
    | mk m tr =>
      simp only [currentAtGo, List.map]
      by_cases hk : k < inc.length
      · rw [List.drop_eq_getElem_cons hk]
        have hbit : bitTest inc k = inc[k] := by
          rw [bitTest_eq, List.getElem?_eq_getElem hk]
          rfl
        rw [hbit, ih (k + 1)]
        simp only [filterZip]
      · have hd1 : inc.drop k = [] := List.drop_eq_nil_of_le (by omega)
        have hd2 : inc.drop (k + 1) = [] := List.drop_eq_nil_of_le (by omega)
        have hbit : bitTest inc k = false := by
          rw [bitTest_eq, List.getElem?_eq_none (by omega)]
          rfl
        rw [hbit, ih (k + 1), hd1, hd2, filterZip_nil_left, filterZip_nil_left]
        simp

theorem filterZip_replicate_true :
    ∀ (xs : List T) (n : Nat), xs.length ≤ n →
    filterZip (List.replicate n true) xs = xs := by
  intro xs
  induction xs with
  | nil => intro n _; cases n <;> rfl
  | cons x rest ih =>
    intro n h
    cases n with
    | zero => simp at h
    | succ n =>
      rw [List.replicate_succ]
      show filterZip (true :: List.replicate n true) (x :: rest) = x :: rest
      simp only [filterZip, if_pos]
      rw [ih n (by simpa using h)]

/-- A congruence for `check_acceptable` with no override: it only looks
at the model-related fields, the inclusion bits and the cached values. -/
theorem check_acceptable_congr (ops : VTOps VT T)
    {t u : SequentialValueTree State T VT}
    (h1 : u.initial_state = t.initial_state)
    (h2 : u.preconditions = t.preconditions)
    (h3 : u.next = t.next)
    (h4 : u.included_transitions = t.included_transitions)
    (h5 : u.acceptable_transitions.map Prod.snd = t.acceptable_transitions.map Prod.snd) :
    check_acceptable ops u none = check_acceptable ops t none := by
  unfold check_acceptable current_at
  rw [h1, h2, h3, h4, currentAtGo_none_trs ops _ u.transitions t.transitions,
    currentAtGo_congr_snd ops _ _ _ _ 0 _ h5]

/-- Caching a slot's current value turns the overridden acceptability
check into the plain one. -/
theorem check_acceptable_cache (ops : VTOps VT T)
    (t : SequentialValueTree State T VT) (ix : Nat) (m : TransitionState) (vt : VT)
    (hix : ix < t.acceptable_transitions.length)
    (htrs : t.transitions.get? ix = some vt) :
    check_acceptable ops
      { t with acceptable_transitions :=
          t.acceptable_transitions.set ix (m, ops.vtCurrent vt) } none
      = check_acceptable ops t (some ix) := by
  unfold check_acceptable current_at
  simp only
  have := currentAtGo_set_current ops t.included_transitions t.transitions
    t.acceptable_transitions 0 ix m vt hix (by simpa using htrs)
  rw [Nat.zero_add] at this
  rw [this]

/-! ## The reachability invariant -/

theorem get?_set_self_of_lt {α : Type} (l : List α) {i : Nat} (a : α)
    (h : i < l.length) : (l.set i a).get? i = some a := by
  rw [List.get?_eq_getElem?, List.getElem?_set]
  simp [h]

/-- The invariant maintained by generation, `simplify()` and
`complicate()`.  Besides the length bookkeeping it records: the
inclusion count never drops below `min_size`; the current candidate
always replays acceptably; a delete cursor only points at included
slots (everything at or below it is still included); and a remembered
delete at `ix` can be undone — re-including slot `ix` yields a candidate
that replays acceptably. -/
structure Inv (ops : VTOps VT T) (t : SequentialValueTree State T VT) : Prop where
  lenAcc : t.acceptable_transitions.length = t.transitions.length
  lenInc : t.included_transitions.length = t.transitions.length
  lenShr : t.shrinkable_transitions.length = t.transitions.length
  maxIx : t.max_ix + 1 = t.transitions.length
  minLe : t.min_size ≤ bitCount t.included_transitions
  accOk : check_acceptable ops t none = true
  curD : ∀ ix, t.shrink = DeleteTransition ix →
    ix < t.transitions.length ∧
      ∀ j, j ≤ ix → bitTest t.included_transitions j = true
  curS : ∀ ix, t.shrink = ShrinkTransition ix → ix < t.transitions.length
  prevD : ∀ ix, t.prev_shrink = some (DeleteTransition ix) →
    ix < t.transitions.length ∧
      bitTest t.included_transitions ix = false ∧
      check_acceptable ops
        { t with included_transitions := bitSet t.included_transitions ix }
        none = true
  prevS : ∀ ix, t.prev_shrink = some (ShrinkTransition ix) →
    ix < t.transitions.length

/-- The fields of the tree that no operation ever modifies, plus the
(unchanging) lengths of its lists. -/
def SameShape (t u : SequentialValueTree State T VT) : Prop :=
  u.initial_state = t.initial_state ∧
  u.preconditions = t.preconditions ∧
  u.next = t.next ∧
  u.min_size = t.min_size ∧
  u.max_ix = t.max_ix ∧
  u.transitions.length = t.transitions.length ∧
  u.included_transitions.length = t.included_transitions.length ∧
  u.shrinkable_transitions.length = t.shrinkable_transitions.length ∧
  u.acceptable_transitions.length = t.acceptable_transitions.length

theorem sameShape_refl (t : SequentialValueTree State T VT) : SameShape t t :=
  ⟨rfl, rfl, rfl, rfl, rfl, rfl, rfl, rfl, rfl⟩

theorem sameShape_trans {t u v : SequentialValueTree State T VT}
    (h1 : SameShape t u) (h2 : SameShape u v) : SameShape t v := by
  obtain ⟨a1, a2, a3, a4, a5, a6, a7, a8, a9⟩ := h1
  obtain ⟨b1, b2, b3, b4, b5, b6, b7, b8, b9⟩ := h2
  exact ⟨b1.trans a1, b2.trans a2, b3.trans a3, b4.trans a4, b5.trans a5,
    b6.trans a6, b7.trans a7, b8.trans a8, b9.trans a9⟩

/-- Marker evolution across `simplify()`: a changed marker is never
`ComplicateRejected`. -/
def NoNewCR [Inhabited T] (t u : SequentialValueTree State T VT) : Prop :=
  ∀ i, markerAt u i ≠ markerAt t i → markerAt u i ≠ some ComplicateRejected

/-- Marker evolution across `complicate()`: a changed marker is never
`SimplifyRejected`. -/
def NoNewSR [Inhabited T] (t u : SequentialValueTree State T VT) : Prop :=
  ∀ i, markerAt u i ≠ markerAt t i → markerAt u i ≠ some SimplifyRejected

theorem noNewCR_refl [Inhabited T] (t : SequentialValueTree State T VT) :
    NoNewCR t t := fun _ h => absurd rfl h

theorem noNewCR_trans [Inhabited T] {t u v : SequentialValueTree State T VT}
    (h1 : NoNewCR t u) (h2 : NoNewCR u v) : NoNewCR t v := by
  intro i hne
  by_cases h : markerAt v i = markerAt u i
  · rw [h]
    rw [h] at hne
    exact h1 i hne
  · exact h2 i h

/-- The two self-reproducing exit configurations of a `false` return
from `simplify()`: either every included slot is rejected and the
rotation search (if the last move allows one) finds nothing, or the
shrinkable set is empty with the cursor in the shrink phase. -/
def QExit [Inhabited T] [Inhabited VT] (ops : VTOps VT T)
    (t : SequentialValueTree State T VT) : Prop :=
  (all_rejected t = true ∧
    ∀ ix, t.prev_shrink = some (ShrinkTransition ix) →
      try_to_find_acceptable ops t ix = (false, t)) ∨
  (bitCount t.shrinkable_transitions = 0 ∧ ∃ ix, t.shrink = ShrinkTransition ix)

/-! ### `try_to_find_acceptable` lemmas -/

theorem ttfaGo_cases [Inhabited T] [Inhabited VT] (ops : VTOps VT T)
    (t : SequentialValueTree State T VT) (start : Nat) :
    ∀ (f cur : Nat),
    ttfaGo ops t start f cur = (false, t) ∨
    ∃ j, bitTest t.included_transitions j = true ∧
         check_acceptable ops t (some j) = true ∧
         ttfaGo ops t start f cur = (true, cacheCurrent ops t j) := by
  intro f
  induction f with
  | zero => intro _; left; rfl
  | succ f ih =>
    intro cur
    simp only [ttfaGo]
    by_cases h : bitTest t.included_transitions cur &&
        check_acceptable ops t (some cur)
    · right
      refine ⟨cur, ?_, ?_, ?_⟩
      · exact (Bool.and_eq_true_iff.mp h).1
      · exact (Bool.and_eq_true_iff.mp h).2
      · rw [if_pos h]
    · rw [if_neg h]
      by_cases h2 : (if cur = t.max_ix then 0 else cur + 1) = start
      · left
        simp only [h2, if_pos]
      · simp only [h2, if_neg, if_false]
        exact ih _

theorem ttfa_cases [Inhabited T] [Inhabited VT] (ops : VTOps VT T)
    (t : SequentialValueTree State T VT) (start : Nat) :
    try_to_find_acceptable ops t start = (false, t) ∨
    ∃ j, bitTest t.included_transitions j = true ∧
         check_acceptable ops t (some j) = true ∧
         try_to_find_acceptable ops t start = (true, cacheCurrent ops t j) :=
  ttfaGo_cases ops t start (t.max_ix + 1) start

/-- `cacheCurrent` at a slot with an acceptable current value preserves
the invariant (used by the rotation search and by the shrink phase via
`check_acceptable_cache`). -/
theorem cacheCurrent_inv [Inhabited T] [Inhabited VT] {ops : VTOps VT T}
    {t : SequentialValueTree State T VT} (hI : Inv ops t) {j : Nat}
    (hjlen : j < t.transitions.length)
    (hj2 : check_acceptable ops t (some j) = true)
    (hprevD : ∀ ix, t.prev_shrink ≠ some (DeleteTransition ix)) :
    Inv ops (cacheCurrent ops t j) := by
  refine ⟨?_, hI.lenInc, hI.lenShr, hI.maxIx, hI.minLe, ?_, hI.curD, hI.curS,
    ?_, hI.prevS⟩
  · show (t.acceptable_transitions.set j _).length = _
    rw [List.length_set]
    exact hI.lenAcc
  · have h1 := check_acceptable_cache ops t j Current (t.transitions.getD j default)
      (by rw [hI.lenAcc]; exact hjlen) (get?_eq_some_getD hjlen)
    exact h1.trans hj2
  · intro ix hix
    exact absurd hix (hprevD ix)

theorem ttfa_inv [Inhabited T] [Inhabited VT] {ops : VTOps VT T}
    {t u : SequentialValueTree State T VT} {start : Nat} {b : Bool}
    (h : try_to_find_acceptable ops t start = (b, u))
    (hI : Inv ops t) {px : Nat}
    (hp : t.prev_shrink = some (ShrinkTransition px)) : Inv ops u := by
  rcases ttfa_cases ops t start with hc | ⟨j, hj1, hj2, hc⟩
  · rw [h] at hc
    have hu : u = t := congrArg Prod.snd hc
    rw [hu]
    exact hI
  · rw [h] at hc
    have hu : u = cacheCurrent ops t j := congrArg Prod.snd hc
    subst hu
    exact cacheCurrent_inv hI (by rw [← hI.lenInc]; exact bitTest_lt_of_true hj1)
      hj2 (fun ix hix => by rw [hp] at hix; simp at hix)

theorem cacheCurrent_shape [Inhabited T] [Inhabited VT] (ops : VTOps VT T)
    (t : SequentialValueTree State T VT) (j : Nat) :
    SameShape t (cacheCurrent ops t j) :=
  ⟨rfl, rfl, rfl, rfl, rfl, rfl, rfl, rfl, List.length_set _ _ _⟩

theorem ttfa_shape [Inhabited T] [Inhabited VT] {ops : VTOps VT T}
    {t u : SequentialValueTree State T VT} {start : Nat} {b : Bool}
    (h : try_to_find_acceptable ops t start = (b, u)) : SameShape t u := by
  rcases ttfa_cases ops t start with hc | ⟨j, _, _, hc⟩
  · rw [h] at hc
    rw [show u = t from congrArg Prod.snd hc]
    exact sameShape_refl t
  · rw [h] at hc
    rw [show u = cacheCurrent ops t j from congrArg Prod.snd hc]
    exact cacheCurrent_shape ops t j

/-- Markers after `cacheCurrent`: slot `j` (if in range) becomes
`Current`, everything else is untouched. -/
theorem markerAt_cacheCurrent [Inhabited T] [Inhabited VT] (ops : VTOps VT T)
    (t : SequentialValueTree State T VT) (j i : Nat) :
    markerAt (cacheCurrent ops t j) i =
      if j = i ∧ j < t.acceptable_transitions.length then some Current
      else markerAt t i := by
  show ((t.acceptable_transitions.set j _).get? i).map Prod.fst = _
  rw [get?_fst_set]
  rfl

/-- Markers after `setMarkerAt`. -/
theorem markerAt_setMarkerAt [Inhabited T]
    (acc : List (TransitionState × T)) (ix i : Nat) (m : TransitionState) :
    ((setMarkerAt acc ix m).get? i).map Prod.fst =
      if ix = i ∧ ix < acc.length then some m
      else (acc.get? i).map Prod.fst := by
  rw [setMarkerAt, get?_fst_set]

theorem cacheCurrent_marker [Inhabited T] [Inhabited VT] (ops : VTOps VT T)
    (t : SequentialValueTree State T VT) (j : Nat) :
    NoNewCR t (cacheCurrent ops t j) := by
  intro i hne
  rw [markerAt_cacheCurrent]
  by_cases hcase : j = i ∧ j < t.acceptable_transitions.length
  · rw [if_pos hcase]
    simp
  · rw [if_neg hcase]
    rw [markerAt_cacheCurrent, if_neg hcase] at hne
    exact absurd rfl hne

theorem ttfa_marker [Inhabited T] [Inhabited VT] {ops : VTOps VT T}
    {t u : SequentialValueTree State T VT} {start : Nat} {b : Bool}
    (h : try_to_find_acceptable ops t start = (b, u)) : NoNewCR t u := by
  rcases ttfa_cases ops t start with hc | ⟨j, _, _, hc⟩
  · rw [h] at hc
    rw [show u = t from congrArg Prod.snd hc]
    exact noNewCR_refl t
  · rw [h] at hc
    rw [show u = cacheCurrent ops t j from congrArg Prod.snd hc]
    exact cacheCurrent_marker ops t j

theorem ttfa_false_eq [Inhabited T] [Inhabited VT] {ops : VTOps VT T}
    {t u : SequentialValueTree State T VT} {start : Nat}
    (h : try_to_find_acceptable ops t start = (false, u)) : u = t := by
  rcases ttfa_cases ops t start with hc | ⟨j, _, _, hc⟩
  · rw [h] at hc
    exact congrArg Prod.snd hc
  · rw [h] at hc
    exact absurd (congrArg Prod.fst hc) (by simp)

/-! ### Step lemmas for the `simplify` state machine -/

/-- The tree carried by a step result. -/
def resTree :
    (Bool × SequentialValueTree State T VT) ⊕
      (SMode × SequentialValueTree State T VT) →
    SequentialValueTree State T VT
  | Sum.inl (_, u) => u
  | Sum.inr (_, u) => u

theorem next_shrink_ne_delete (t : SequentialValueTree State T VT) (ix j : Nat) :
    next_shrink_transition t ix ≠ DeleteTransition j := by
  unfold next_shrink_transition
  by_cases h : ix = t.max_ix <;> simp [h]

theorem next_shrink_lt {t : SequentialValueTree State T VT}
    (hmax : t.max_ix + 1 = t.transitions.length) {ix : Nat}
    (hix : ix < t.transitions.length) :
    ∀ j, next_shrink_transition t ix = ShrinkTransition j →
      j < t.transitions.length := by
  intro j hj
  unfold next_shrink_transition at hj
  by_cases h : ix = t.max_ix
  · rw [if_pos h] at hj
    cases hj
    omega
  · rw [if_neg h] at hj
    cases hj
    omega

theorem deleteStep_inv [Inhabited T] [Inhabited VT] {ops : VTOps VT T}
    {t : SequentialValueTree State T VT} {ix : Nat}
    (hI : Inv ops t) (hsk : t.shrink = DeleteTransition ix)
    (hcnt : bitCount t.included_transitions ≠ t.min_size) :
    Inv ops (resTree (deleteStep ops t ix)) := by
  obtain ⟨hixn, hbelow⟩ := hI.curD ix hsk
  have htix : bitTest t.included_transitions ix = true := hbelow ix (Nat.le_refl ix)
  have hres : bitSet (bitClear t.included_transitions ix) ix
      = t.included_transitions := set_clear_restore htix
  have hnpos : 0 < t.transitions.length := by omega
  simp only [deleteStep]
  by_cases hchk : check_acceptable ops
      { t with included_transitions := bitClear t.included_transitions ix,
               prev_shrink := some (DeleteTransition ix),
               shrink := if ix = 0 then ShrinkTransition 0
                         else DeleteTransition (ix - 1) } none = true
  · rw [if_pos hchk]
    simp only [resTree]
    refine ⟨hI.lenAcc, ?_, ?_, hI.maxIx, ?_, ?_, ?_, ?_, ?_, ?_⟩
    · show (bitClear t.included_transitions ix).length = _
      rw [length_bitClear]
      exact hI.lenInc
    · show (bitClear t.shrinkable_transitions ix).length = _
      rw [length_bitClear]
      exact hI.lenShr
    · show t.min_size ≤ bitCount (bitClear t.included_transitions ix)
      have h1 := bitCount_clear_ge t.included_transitions ix
      have h2 := hI.minLe
      omega
    · exact hchk
    · intro ix' hx
      replace hx : (if ix = 0 then ShrinkTransition 0
          else DeleteTransition (ix - 1)) = DeleteTransition ix' := hx
      by_cases h0 : ix = 0
      · rw [if_pos h0] at hx
        cases hx
      · rw [if_neg h0] at hx
        cases hx
        refine ⟨show ix - 1 < t.transitions.length by omega, fun j hj => ?_⟩
        replace hj : j ≤ ix - 1 := hj
        show bitTest (bitClear t.included_transitions ix) j = true
        rw [bitTest_clear_ne _ (show ix ≠ j by omega)]
        exact hbelow j (by omega)
    · intro ix' hx
      replace hx : (if ix = 0 then ShrinkTransition 0
          else DeleteTransition (ix - 1)) = ShrinkTransition ix' := hx
      by_cases h0 : ix = 0
      · rw [if_pos h0] at hx
        cases hx
        exact hnpos
      · rw [if_neg h0] at hx
        cases hx
    · intro ix' hx
      replace hx : some (DeleteTransition ix) = some (DeleteTransition ix') := hx
      cases hx
      refine ⟨hixn, bitTest_clear_self _ _, ?_⟩
      show check_acceptable ops
        { t with included_transitions :=
                   bitSet (bitClear t.included_transitions ix) ix,
                 shrinkable_transitions := bitClear t.shrinkable_transitions ix,
                 prev_shrink := some (DeleteTransition ix),
                 shrink := if ix = 0 then ShrinkTransition 0
                           else DeleteTransition (ix - 1) } none = true
      rw [hres]
      exact hI.accOk
    · intro ix' hx
      replace hx : some (DeleteTransition ix) = some (ShrinkTransition ix') := hx
      cases hx
  · rw [if_neg hchk]
    simp only [resTree]
    refine ⟨hI.lenAcc, ?_, hI.lenShr, hI.maxIx, ?_, ?_, ?_, ?_, ?_, ?_⟩
    · show (bitSet (bitClear t.included_transitions ix) ix).length = _
      rw [hres]
      exact hI.lenInc
    · show t.min_size ≤ bitCount (bitSet (bitClear t.included_transitions ix) ix)
      rw [hres]
      exact hI.minLe
    · show check_acceptable ops
        { t with included_transitions :=
                   bitSet (bitClear t.included_transitions ix) ix,
                 prev_shrink := none,
                 shrink := if ix = 0 then ShrinkTransition 0
                           else DeleteTransition (ix - 1) } none = true
      rw [hres]
      exact hI.accOk
    · intro ix' hx
      replace hx : (if ix = 0 then ShrinkTransition 0
          else DeleteTransition (ix - 1)) = DeleteTransition ix' := hx
      by_cases h0 : ix = 0
      · rw [if_pos h0] at hx
        cases hx
      · rw [if_neg h0] at hx
        cases hx
        refine ⟨show ix - 1 < t.transitions.length by omega, fun j hj => ?_⟩
        replace hj : j ≤ ix - 1 := hj
        show bitTest (bitSet (bitClear t.included_transitions ix) ix) j = true
        rw [hres]
        exact hbelow j (by omega)
    · intro ix' hx
      replace hx : (if ix = 0 then ShrinkTransition 0
          else DeleteTransition (ix - 1)) = ShrinkTransition ix' := hx
      by_cases h0 : ix = 0
      · rw [if_pos h0] at hx
        cases hx
        exact hnpos
      · rw [if_neg h0] at hx
        cases hx
    · intro ix' hx
      replace hx : (none : Option Shrink) = some (DeleteTransition ix') := hx
      cases hx
    · intro ix' hx
      replace hx : (none : Option Shrink) = some (ShrinkTransition ix') := hx
      cases hx

theorem deleteStep_shape [Inhabited T] [Inhabited VT] (ops : VTOps VT T)
    (t : SequentialValueTree State T VT) (ix : Nat) :
    SameShape t (resTree (deleteStep ops t ix)) := by
  simp only [deleteStep]
  by_cases hchk : check_acceptable ops
      { t with included_transitions := bitClear t.included_transitions ix,
               prev_shrink := some (DeleteTransition ix),
               shrink := if ix = 0 then ShrinkTransition 0
                         else DeleteTransition (ix - 1) } none = true
  · rw [if_pos hchk]
    exact ⟨rfl, rfl, rfl, rfl, rfl, rfl, length_bitClear _ _, length_bitClear _ _, rfl⟩
  · rw [if_neg hchk]
    refine ⟨rfl, rfl, rfl, rfl, rfl, rfl, ?_, rfl, rfl⟩
    show (bitSet (bitClear t.included_transitions ix) ix).length = _
    rw [length_bitSet, length_bitClear]

theorem deleteStep_marker [Inhabited T] [Inhabited VT] (ops : VTOps VT T)
    (t : SequentialValueTree State T VT) (ix : Nat) :
    NoNewCR t (resTree (deleteStep ops t ix)) := by
  simp only [deleteStep]
  by_cases hchk : check_acceptable ops
      { t with included_transitions := bitClear t.included_transitions ix,
               prev_shrink := some (DeleteTransition ix),
               shrink := if ix = 0 then ShrinkTransition 0
                         else DeleteTransition (ix - 1) } none = true
  · rw [if_pos hchk]
    exact fun i hne => absurd rfl hne
  · rw [if_neg hchk]
    exact fun i hne => absurd rfl hne

theorem deleteStep_not_false [Inhabited T] [Inhabited VT] (ops : VTOps VT T)
    (t : SequentialValueTree State T VT) (ix : Nat) {b : Bool}
    {u : SequentialValueTree State T VT}
    (h : deleteStep ops t ix = Sum.inl (b, u)) : b = true := by
  simp only [deleteStep] at h
  by_cases hchk : check_acceptable ops
      { t with included_transitions := bitClear t.included_transitions ix,
               prev_shrink := some (DeleteTransition ix),
               shrink := if ix = 0 then ShrinkTransition 0
                         else DeleteTransition (ix - 1) } none = true
  · rw [if_pos hchk] at h
    cases h
    rfl
  · rw [if_neg hchk] at h
    cases h

theorem length_setMarkerAt [Inhabited T] (acc : List (TransitionState × T))
    (ix : Nat) (m : TransitionState) :
    (setMarkerAt acc ix m).length = acc.length :=
  List.length_set _ _ _

theorem next_shrink_cases (t : SequentialValueTree State T VT) (ix : Nat) :
    next_shrink_transition t ix =
      ShrinkTransition (if ix = t.max_ix then 0 else ix + 1) := by
  unfold next_shrink_transition
  by_cases h : ix = t.max_ix <;> simp [h]

theorem fst_set_changed (acc : List (TransitionState × T)) (ix i : Nat)
    (p : TransitionState × T)
    (h : ((acc.set ix p).get? i).map Prod.fst ≠ (acc.get? i).map Prod.fst) :
    ((acc.set ix p).get? i).map Prod.fst = some p.1 := by
  rw [get?_fst_set] at h ⊢
  by_cases hc : ix = i ∧ ix < acc.length
  · rw [if_pos hc]
  · rw [if_neg hc] at h
    exact absurd rfl h

/-- `check_acceptable` with no override ignores the generator handles,
the shrinkable set, the cursor and the remembered move. -/
theorem check_none_frame (ops : VTOps VT T) (t : SequentialValueTree State T VT)
    (trs' : List VT) (inc0 shr' : List Bool) (c' : Shrink) (p' : Option Shrink) :
    check_acceptable ops
      { t with transitions := trs', included_transitions := inc0,
               shrinkable_transitions := shr', shrink := c', prev_shrink := p' }
      none
      = check_acceptable ops { t with included_transitions := inc0 } none :=
  check_acceptable_congr ops rfl rfl rfl rfl rfl

/-- As `check_none_frame`, additionally replacing a marker (which does
not change the cached transition values). -/
theorem check_none_frame_marker [Inhabited T] (ops : VTOps VT T)
    (t : SequentialValueTree State T VT)
    (trs' : List VT) (inc0 shr' : List Bool) (j : Nat) (m : TransitionState)
    (c' : Shrink) (p' : Option Shrink) :
    check_acceptable ops
      { t with transitions := trs', included_transitions := inc0,
               shrinkable_transitions := shr',
               acceptable_transitions := setMarkerAt t.acceptable_transitions j m,
               shrink := c', prev_shrink := p' }
      none
      = check_acceptable ops { t with included_transitions := inc0 } none :=
  check_acceptable_congr ops rfl rfl rfl rfl
    (setMarkerAt_map_snd t.acceptable_transitions j m)

/-- Case analysis of `shrinkSlot`: refusal, accepted-and-valid, or
accepted-and-rejected. -/
theorem shrinkSlot_spec [Inhabited T] [Inhabited VT] (ops : VTOps VT T)
    (t : SequentialValueTree State T VT) (ix : Nat) {rb : Bool} {rv : VT}
    (hres : ops.vtSimplify (t.transitions.getD ix default) = (rb, rv)) :
    (rb = false ∧ shrinkSlot ops t ix = Sum.inr (SMode.shrinkWhile,
      { t with transitions := t.transitions.set ix rv,
               shrinkable_transitions := bitClear t.shrinkable_transitions ix,
               shrink := next_shrink_transition t ix })) ∨
    (rb = true ∧ check_acceptable ops
        { t with transitions := t.transitions.set ix rv,
                 prev_shrink := some (ShrinkTransition ix) } (some ix) = true ∧
      shrinkSlot ops t ix = Sum.inl (true,
        { t with transitions := t.transitions.set ix rv,
                 prev_shrink := some (ShrinkTransition ix),
                 acceptable_transitions :=
                   t.acceptable_transitions.set ix (Current, ops.vtCurrent rv) })) ∨
    (rb = true ∧ check_acceptable ops
        { t with transitions := t.transitions.set ix rv,
                 prev_shrink := some (ShrinkTransition ix) } (some ix) = false ∧
      shrinkSlot ops t ix = Sum.inr (SMode.simplifyCall,
        { t with transitions := t.transitions.set ix rv,
                 prev_shrink := some (ShrinkTransition ix),
                 acceptable_transitions :=
                   setMarkerAt t.acceptable_transitions ix SimplifyRejected,
                 shrink := next_shrink_transition t ix })) := by
  cases rb with
  | false =>
    left
    refine ⟨rfl, ?_⟩
    simp only [shrinkSlot]
    rw [hres]
    rfl
  | true =>
    have hstep : shrinkSlot ops t ix =
        (if check_acceptable ops
             { t with transitions := t.transitions.set ix rv,
                      prev_shrink := some (ShrinkTransition ix) } (some ix) = true
         then Sum.inl (true,
           { t with transitions := t.transitions.set ix rv,
                    prev_shrink := some (ShrinkTransition ix),
                    acceptable_transitions :=
                      t.acceptable_transitions.set ix (Current, ops.vtCurrent rv) })
         else Sum.inr (SMode.simplifyCall,
           { t with transitions := t.transitions.set ix rv,
                    prev_shrink := some (ShrinkTransition ix),
                    acceptable_transitions :=
                      setMarkerAt t.acceptable_transitions ix SimplifyRejected,
                    shrink := next_shrink_transition t ix })) := by
      simp only [shrinkSlot]
      rw [hres]
      rfl
    rw [hstep]
    cases hchk : check_acceptable ops
        { t with transitions := t.transitions.set ix rv,
                 prev_shrink := some (ShrinkTransition ix) } (some ix) with
    | true =>
      right
      left
      exact ⟨rfl, rfl, if_pos rfl⟩
    | false =>
      right
      right
      exact ⟨rfl, rfl, if_neg (by simp)⟩

theorem shrinkSlot_inv [Inhabited T] [Inhabited VT] {ops : VTOps VT T}
    {t : SequentialValueTree State T VT} {ix : Nat}
    (hI : Inv ops t) (hsk : t.shrink = ShrinkTransition ix) :
    Inv ops (resTree (shrinkSlot ops t ix)) := by
  have hixn : ix < t.transitions.length := hI.curS ix hsk
  have hnextS : ∀ d, ShrinkTransition (if ix = t.max_ix then 0 else ix + 1)
      = ShrinkTransition d → d < t.transitions.length := by
    intro d hd
    cases hd
    by_cases h : ix = t.max_ix
    · rw [if_pos h]
      omega
    · rw [if_neg h]
      have := hI.maxIx
      omega
  rcases hres : ops.vtSimplify (t.transitions.getD ix default) with ⟨rb, rv⟩
  rcases shrinkSlot_spec ops t ix hres with ⟨hb, heq⟩ | ⟨hb, hchk, heq⟩ | ⟨hb, hchk, heq⟩
  all_goals rw [heq]
  all_goals simp only [resTree]
  · -- generator refused: shrinkable bit cleared, cursor advanced
    refine ⟨?_, ?_, ?_, ?_, hI.minLe, ?_, ?_, ?_, ?_, ?_⟩
    · show t.acceptable_transitions.length = (t.transitions.set ix rv).length
      rw [List.length_set]
      exact hI.lenAcc
    · show t.included_transitions.length = (t.transitions.set ix rv).length
      rw [List.length_set]
      exact hI.lenInc
    · show (bitClear t.shrinkable_transitions ix).length = (t.transitions.set ix rv).length
      rw [length_bitClear, List.length_set]
      exact hI.lenShr
    · show t.max_ix + 1 = (t.transitions.set ix rv).length
      rw [List.length_set]
      exact hI.maxIx
    · exact (check_none_frame ops t _ _ _ _ _).trans hI.accOk
    · intro d hd
      replace hd : next_shrink_transition t ix = DeleteTransition d := hd
      exact absurd hd (next_shrink_ne_delete t ix d)
    · intro d hd
      replace hd : next_shrink_transition t ix = ShrinkTransition d := hd
      rw [next_shrink_cases] at hd
      show d < (t.transitions.set ix rv).length
      rw [List.length_set]
      exact hnextS d hd
    · intro d hd
      replace hd : t.prev_shrink = some (DeleteTransition d) := hd
      obtain ⟨h1, h2, h3⟩ := hI.prevD d hd
      refine ⟨?_, h2, ?_⟩
      · show d < (t.transitions.set ix rv).length
        rw [List.length_set]
        exact h1
      · exact (check_none_frame ops t _ _ _ _ _).trans h3
    · intro d hd
      replace hd : t.prev_shrink = some (ShrinkTransition d) := hd
      show d < (t.transitions.set ix rv).length
      rw [List.length_set]
      exact hI.prevS d hd
  · -- accepted and replay valid: cached as Current
    refine ⟨?_, ?_, ?_, ?_, hI.minLe, ?_, ?_, ?_, ?_, ?_⟩
    · show (t.acceptable_transitions.set ix _).length = (t.transitions.set ix rv).length
      rw [List.length_set, List.length_set]
      exact hI.lenAcc
    · show t.included_transitions.length = (t.transitions.set ix rv).length
      rw [List.length_set]
      exact hI.lenInc
    · show t.shrinkable_transitions.length = (t.transitions.set ix rv).length
      rw [List.length_set]
      exact hI.lenShr
    · show t.max_ix + 1 = (t.transitions.set ix rv).length
      rw [List.length_set]
      exact hI.maxIx
    · have hcache := check_acceptable_cache ops
        { t with transitions := t.transitions.set ix rv,
                 prev_shrink := some (ShrinkTransition ix) } ix Current rv
        (by show ix < t.acceptable_transitions.length
            rw [hI.lenAcc]
            exact hixn)
        (by show (t.transitions.set ix rv).get? ix = some rv
            exact get?_set_self_of_lt t.transitions rv hixn)
      exact hcache.trans hchk
    · intro d hd
      replace hd : t.shrink = DeleteTransition d := hd
      rw [hsk] at hd
      cases hd
    · intro d hd
      replace hd : t.shrink = ShrinkTransition d := hd
      rw [hsk] at hd
      cases hd
      show ix < (t.transitions.set ix rv).length
      rw [List.length_set]
      exact hixn
    · intro d hd
      replace hd : (some (ShrinkTransition ix) : Option Shrink)
          = some (DeleteTransition d) := hd
      cases hd
    · intro d hd
      replace hd : (some (ShrinkTransition ix) : Option Shrink)
          = some (ShrinkTransition d) := hd
      cases hd
      show ix < (t.transitions.set ix rv).length
      rw [List.length_set]
      exact hixn
  · -- accepted but replay invalid: marked SimplifyRejected, cursor advanced
    refine ⟨?_, ?_, ?_, ?_, hI.minLe, ?_, ?_, ?_, ?_, ?_⟩
    · show (setMarkerAt t.acceptable_transitions ix _).length
          = (t.transitions.set ix rv).length
      rw [length_setMarkerAt, List.length_set]
      exact hI.lenAcc
    · show t.included_transitions.length = (t.transitions.set ix rv).length
      rw [List.length_set]
      exact hI.lenInc
    · show t.shrinkable_transitions.length = (t.transitions.set ix rv).length
      rw [List.length_set]
      exact hI.lenShr
    · show t.max_ix + 1 = (t.transitions.set ix rv).length
      rw [List.length_set]
      exact hI.maxIx
    · exact (check_none_frame_marker ops t _ _ _ _ _ _ _).trans hI.accOk
    · intro d hd
      replace hd : next_shrink_transition t ix = DeleteTransition d := hd
      exact absurd hd (next_shrink_ne_delete t ix d)
    · intro d hd
      replace hd : next_shrink_transition t ix = ShrinkTransition d := hd
      rw [next_shrink_cases] at hd
      show d < (t.transitions.set ix rv).length
      rw [List.length_set]
      exact hnextS d hd
    · intro d hd
      replace hd : (some (ShrinkTransition ix) : Option Shrink)
          = some (DeleteTransition d) := hd
      cases hd
    · intro d hd
      replace hd : (some (ShrinkTransition ix) : Option Shrink)
          = some (ShrinkTransition d) := hd
      cases hd
      show ix < (t.transitions.set ix rv).length
      rw [List.length_set]
      exact hixn

theorem shrinkSlot_shape [Inhabited T] [Inhabited VT] (ops : VTOps VT T)
    (t : SequentialValueTree State T VT) (ix : Nat) :
    SameShape t (resTree (shrinkSlot ops t ix)) := by
  rcases hres : ops.vtSimplify (t.transitions.getD ix default) with ⟨rb, rv⟩
  rcases shrinkSlot_spec ops t ix hres with ⟨hb, heq⟩ | ⟨hb, hchk, heq⟩ | ⟨hb, hchk, heq⟩
  all_goals rw [heq]
  all_goals simp only [resTree]
  · exact ⟨rfl, rfl, rfl, rfl, rfl, List.length_set _ _ _, rfl,
      length_bitClear _ _, rfl⟩
  · exact ⟨rfl, rfl, rfl, rfl, rfl, List.length_set _ _ _, rfl, rfl,
      List.length_set _ _ _⟩
  · exact ⟨rfl, rfl, rfl, rfl, rfl, List.length_set _ _ _, rfl, rfl,
      length_setMarkerAt _ _ _⟩

theorem shrinkSlot_marker [Inhabited T] [Inhabited VT] (ops : VTOps VT T)
    (t : SequentialValueTree State T VT) (ix : Nat) :
    NoNewCR t (resTree (shrinkSlot ops t ix)) := by
  rcases hres : ops.vtSimplify (t.transitions.getD ix default) with ⟨rb, rv⟩
  rcases shrinkSlot_spec ops t ix hres with ⟨hb, heq⟩ | ⟨hb, hchk, heq⟩ | ⟨hb, hchk, heq⟩
  all_goals rw [heq]
  all_goals simp only [resTree]
  · exact fun i hne => absurd rfl hne
  · intro i hne
    replace hne : ((t.acceptable_transitions.set ix
        (Current, ops.vtCurrent rv)).get? i).map Prod.fst
        ≠ (t.acceptable_transitions.get? i).map Prod.fst := hne
    show ((t.acceptable_transitions.set ix
        (Current, ops.vtCurrent rv)).get? i).map Prod.fst ≠ some ComplicateRejected
    rw [fst_set_changed _ _ _ _ hne]
    simp
  · intro i hne
    replace hne : ((setMarkerAt t.acceptable_transitions ix
        SimplifyRejected).get? i).map Prod.fst
        ≠ (t.acceptable_transitions.get? i).map Prod.fst := hne
    show ((setMarkerAt t.acceptable_transitions ix
        SimplifyRejected).get? i).map Prod.fst ≠ some ComplicateRejected
    rw [setMarkerAt] at hne ⊢
    rw [fst_set_changed _ _ _ _ hne]
    simp

theorem shrinkSlot_not_false [Inhabited T] [Inhabited VT] (ops : VTOps VT T)
    (t : SequentialValueTree State T VT) (ix : Nat) {b : Bool}
    {u : SequentialValueTree State T VT}
    (h : shrinkSlot ops t ix = Sum.inl (b, u)) : b = true := by
  rcases hres : ops.vtSimplify (t.transitions.getD ix default) with ⟨rb, rv⟩
  rcases shrinkSlot_spec ops t ix hres with ⟨hb, heq⟩ | ⟨hb, hchk, heq⟩ | ⟨hb, hchk, heq⟩
  · rw [heq] at h
    cases h
  · rw [heq] at h
    cases h
    rfl
  · rw [heq] at h
    cases h

theorem next_ix_lt {t : SequentialValueTree State T VT}
    (hmax : t.max_ix + 1 = t.transitions.length) {ix : Nat}
    (hix : ix < t.transitions.length) :
    (if ix = t.max_ix then 0 else ix + 1) < t.transitions.length := by
  by_cases h : ix = t.max_ix
  · rw [if_pos h]
    omega
  · rw [if_neg h]
    omega

/-- Changing only the cursor to an in-range shrink position preserves
the invariant. -/
theorem inv_set_cursor_shrink {ops : VTOps VT T}
    {t : SequentialValueTree State T VT} (hI : Inv ops t) {j : Nat}
    (hj : j < t.transitions.length) :
    Inv ops { t with shrink := ShrinkTransition j } := by
  refine ⟨hI.lenAcc, hI.lenInc, hI.lenShr, hI.maxIx, hI.minLe, hI.accOk,
    ?_, ?_, hI.prevD, hI.prevS⟩
  · intro d hd
    replace hd : ShrinkTransition j = DeleteTransition d := hd
    cases hd
  · intro d hd
    replace hd : ShrinkTransition j = ShrinkTransition d := hd
    cases hd
    exact hj

theorem stepF_inv [Inhabited T] [Inhabited VT] {ops : VTOps VT T} {m : SMode}
    {t : SequentialValueTree State T VT}
    {r : (Bool × SequentialValueTree State T VT) ⊕
         (SMode × SequentialValueTree State T VT)}
    (hs : stepF ops m t = some r) (hI : Inv ops t) : Inv ops (resTree r) := by
  cases m with
  | simplifyCall =>
    simp only [stepF] at hs
    by_cases har : all_rejected t = true
    · rw [if_pos har] at hs
      cases hp : t.prev_shrink with
      | none =>
        rw [hp] at hs
        injection hs with h
        subst h
        exact hI
      | some sh =>
        cases sh with
        | DeleteTransition ix =>
          rw [hp] at hs
          injection hs with h
          subst h
          exact hI
        | ShrinkTransition ix =>
          rw [hp] at hs
          injection hs with h
          subst h
          rcases hres : try_to_find_acceptable ops t ix with ⟨b, u⟩
          simp only [hres, resTree]
          exact ttfa_inv hres hI hp
    · rw [if_neg har] at hs
      injection hs with h
      subst h
      exact hI
  | tryShrink =>
    simp only [stepF] at hs
    split at hs
    case _ ix hsk =>
      by_cases hcnt : bitCount t.included_transitions = t.min_size
      · rw [if_pos hcnt] at hs
        injection hs with h
        subst h
        simp only [resTree]
        have hn : 0 < t.transitions.length := by
          have := hI.maxIx
          omega
        exact inv_set_cursor_shrink hI hn
      · rw [if_neg hcnt] at hs
        injection hs with h
        subst h
        exact deleteStep_inv hI hsk hcnt
    case _ ix hsk =>
      injection hs with h
      subst h
      exact hI
  | shrinkWhile =>
    simp only [stepF] at hs
    split at hs
    case _ ix hsk =>
      cases hs
    case _ ix hsk =>
      have hixn : ix < t.transitions.length := hI.curS ix hsk
      by_cases hcnt : bitCount t.shrinkable_transitions = 0
      · rw [if_pos hcnt] at hs
        injection hs with h
        subst h
        exact hI
      · rw [if_neg hcnt] at hs
        cases hinc : bitTest t.included_transitions ix with
        | false =>
          rw [hinc] at hs
          rw [if_pos (show ((!false : Bool) = true) from rfl)] at hs
          injection hs with h
          subst h
          simp only [resTree]
          rw [next_shrink_cases t ix]
          exact inv_set_cursor_shrink hI (next_ix_lt hI.maxIx hixn)
        | true =>
          rw [hinc] at hs
          rw [if_neg (show ¬((!true : Bool) = true) from by simp)] at hs
          split at hs
          · injection hs with h
            subst h
            simp only [resTree]
            rw [next_shrink_cases t ix]
            exact inv_set_cursor_shrink hI (next_ix_lt hI.maxIx hixn)
          · injection hs with h
            subst h
            exact shrinkSlot_inv hI hsk

theorem stepF_shape [Inhabited T] [Inhabited VT] {ops : VTOps VT T} {m : SMode}
    {t : SequentialValueTree State T VT}
    {r : (Bool × SequentialValueTree State T VT) ⊕
         (SMode × SequentialValueTree State T VT)}
    (hs : stepF ops m t = some r) : SameShape t (resTree r) := by
  cases m with
  | simplifyCall =>
    simp only [stepF] at hs
    by_cases har : all_rejected t = true
    · rw [if_pos har] at hs
      cases hp : t.prev_shrink with
      | none =>
        rw [hp] at hs
        injection hs with h
        subst h
        exact sameShape_refl t
      | some sh =>
        cases sh with
        | DeleteTransition ix =>
          rw [hp] at hs
          injection hs with h
          subst h
          exact sameShape_refl t
        | ShrinkTransition ix =>
          rw [hp] at hs
          injection hs with h
          subst h
          rcases hres : try_to_find_acceptable ops t ix with ⟨b, u⟩
          simp only [hres, resTree]
          exact ttfa_shape hres
    · rw [if_neg har] at hs
      injection hs with h
      subst h
      exact sameShape_refl t
  | tryShrink =>
    simp only [stepF] at hs
    split at hs
    case _ ix hsk =>
      by_cases hcnt : bitCount t.included_transitions = t.min_size
      · rw [if_pos hcnt] at hs
        injection hs with h
        subst h
        exact ⟨rfl, rfl, rfl, rfl, rfl, rfl, rfl, rfl, rfl⟩
      · rw [if_neg hcnt] at hs
        injection hs with h
        subst h
        exact deleteStep_shape ops t ix
    case _ ix hsk =>
      injection hs with h
      subst h
      exact sameShape_refl t
  | shrinkWhile =>
    simp only [stepF] at hs
    split at hs
    case _ ix hsk =>
      cases hs
    case _ ix hsk =>
      by_cases hcnt : bitCount t.shrinkable_transitions = 0
      · rw [if_pos hcnt] at hs
        injection hs with h
        subst h
        exact sameShape_refl t
      · rw [if_neg hcnt] at hs
        cases hinc : bitTest t.included_transitions ix with
        | false =>
          rw [hinc] at hs
          rw [if_pos (show ((!false : Bool) = true) from rfl)] at hs
          injection hs with h
          subst h
          exact ⟨rfl, rfl, rfl, rfl, rfl, rfl, rfl, rfl, rfl⟩
        | true =>
          rw [hinc] at hs
          rw [if_neg (show ¬((!true : Bool) = true) from by simp)] at hs
          split at hs
          · injection hs with h
            subst h
            exact ⟨rfl, rfl, rfl, rfl, rfl, rfl, rfl, rfl, rfl⟩
          · injection hs with h
            subst h
            exact shrinkSlot_shape ops t ix

theorem stepF_marker [Inhabited T] [Inhabited VT] {ops : VTOps VT T} {m : SMode}
    {t : SequentialValueTree State T VT}
    {r : (Bool × SequentialValueTree State T VT) ⊕
         (SMode × SequentialValueTree State T VT)}
    (hs : stepF ops m t = some r) : NoNewCR t (resTree r) := by
  cases m with
  | simplifyCall =>
    simp only [stepF] at hs
    by_cases har : all_rejected t = true
    · rw [if_pos har] at hs
      cases hp : t.prev_shrink with
      | none =>
        rw [hp] at hs
        injection hs with h
        subst h
        exact noNewCR_refl t
      | some sh =>
        cases sh with
        | DeleteTransition ix =>
          rw [hp] at hs
          injection hs with h
          subst h
          exact noNewCR_refl t
        | ShrinkTransition ix =>
          rw [hp] at hs
          injection hs with h
          subst h
          rcases hres : try_to_find_acceptable ops t ix with ⟨b, u⟩
          simp only [hres, resTree]
          exact ttfa_marker hres
    · rw [if_neg har] at hs
      injection hs with h
      subst h
      exact noNewCR_refl t
  | tryShrink =>
    simp only [stepF] at hs
    split at hs
    case _ ix hsk =>
      by_cases hcnt : bitCount t.included_transitions = t.min_size
      · rw [if_pos hcnt] at hs
        injection hs with h
        subst h
        exact fun i hne => absurd rfl hne
      · rw [if_neg hcnt] at hs
        injection hs with h
        subst h
        exact deleteStep_marker ops t ix
    case _ ix hsk =>
      injection hs with h
      subst h
      exact noNewCR_refl t
  | shrinkWhile =>
    simp only [stepF] at hs
    split at hs
    case _ ix hsk =>
      cases hs
    case _ ix hsk =>
      by_cases hcnt : bitCount t.shrinkable_transitions = 0
      · rw [if_pos hcnt] at hs
        injection hs with h
        subst h
        exact noNewCR_refl t
      · rw [if_neg hcnt] at hs
        cases hinc : bitTest t.included_transitions ix with
        | false =>
          rw [hinc] at hs
          rw [if_pos (show ((!false : Bool) = true) from rfl)] at hs
          injection hs with h
          subst h
          exact fun i hne => absurd rfl hne
        | true =>
          rw [hinc] at hs
          rw [if_neg (show ¬((!true : Bool) = true) from by simp)] at hs
          split at hs
          · injection hs with h
            subst h
            exact fun i hne => absurd rfl hne
          · injection hs with h
            subst h
            exact shrinkSlot_marker ops t ix

theorem stepF_falseExit [Inhabited T] [Inhabited VT] {ops : VTOps VT T}
    {m : SMode} {t u : SequentialValueTree State T VT}
    (hs : stepF ops m t = some (Sum.inl (false, u))) : QExit ops u := by
  cases m with
  | simplifyCall =>
    simp only [stepF] at hs
    by_cases har : all_rejected t = true
    · rw [if_pos har] at hs
      cases hp : t.prev_shrink with
      | none =>
        rw [hp] at hs
        injection hs with h
        injection h with h2
        have hu : t = u := congrArg Prod.snd h2
        subst hu
        left
        refine ⟨har, fun ix hpx => ?_⟩
        rw [hp] at hpx
        cases hpx
      | some sh =>
        cases sh with
        | DeleteTransition ix =>
          rw [hp] at hs
          injection hs with h
          injection h with h2
          have hu : t = u := congrArg Prod.snd h2
          subst hu
          left
          refine ⟨har, fun ix' hpx => ?_⟩
          rw [hp] at hpx
          cases hpx
        | ShrinkTransition ix =>
          rw [hp] at hs
          injection hs with h
          injection h with h2
          have hres : try_to_find_acceptable ops t ix = (false, u) := h2
          have hu : u = t := ttfa_false_eq hres
          subst hu
          left
          refine ⟨har, fun ix' hpx => ?_⟩
          rw [hp] at hpx
          injection hpx with h3
          injection h3 with h4
          rw [← h4]
          exact hres
    · rw [if_neg har] at hs
      injection hs with h
      cases h
  | tryShrink =>
    simp only [stepF] at hs
    split at hs
    case _ ix hsk =>
      by_cases hcnt : bitCount t.included_transitions = t.min_size
      · rw [if_pos hcnt] at hs
        injection hs with h
        cases h
      · rw [if_neg hcnt] at hs
        injection hs with h
        have := deleteStep_not_false ops t ix h
        cases this
    case _ ix hsk =>
      injection hs with h
      cases h
  | shrinkWhile =>
    simp only [stepF] at hs
    split at hs
    case _ ix hsk =>
      cases hs
    case _ ix hsk =>
      by_cases hcnt : bitCount t.shrinkable_transitions = 0
      · rw [if_pos hcnt] at hs
        injection hs with h
        injection h with h2
        have hu : t = u := congrArg Prod.snd h2
        subst hu
        right
        exact ⟨hcnt, ix, hsk⟩
      · rw [if_neg hcnt] at hs
        cases hinc : bitTest t.included_transitions ix with
        | false =>
          rw [hinc] at hs
          rw [if_pos (show ((!false : Bool) = true) from rfl)] at hs
          injection hs with h
          cases h
        | true =>
          rw [hinc] at hs
          rw [if_neg (show ¬((!true : Bool) = true) from by simp)] at hs
          split at hs
          · injection hs with h
            cases h
          · injection hs with h
            have := shrinkSlot_not_false ops t ix h
            cases this

/-! ### Driver lemmas -/

theorem runSimplify_inv [Inhabited T] [Inhabited VT] {ops : VTOps VT T} :
    ∀ (f : Nat) (m : SMode) (t : SequentialValueTree State T VT) {b : Bool}
      {u : SequentialValueTree State T VT},
    runSimplify ops f m t = some (b, u) → Inv ops t → Inv ops u := by
  intro f
  induction f with
  | zero =>
    intro m t b u h _
    cases h
  | succ f ih =>
    intro m t b u h hI
    simp only [runSimplify] at h
    cases hstep : stepF ops m t with
    | none =>
      rw [hstep] at h
      cases h
    | some r =>
      cases r with
      | inl p =>
        rcases p with ⟨b', u'⟩
        rw [hstep] at h
        injection h with h2
        have hu : u' = u := congrArg Prod.snd h2
        subst hu
        exact stepF_inv hstep hI
      | inr q =>
        rcases q with ⟨m', t'⟩
        rw [hstep] at h
        exact ih m' t' h (stepF_inv hstep hI)

theorem runSimplify_shape [Inhabited T] [Inhabited VT] {ops : VTOps VT T} :
    ∀ (f : Nat) (m : SMode) (t : SequentialValueTree State T VT) {b : Bool}
      {u : SequentialValueTree State T VT},
    runSimplify ops f m t = some (b, u) → SameShape t u := by
  intro f
  induction f with
  | zero =>
    intro m t b u h
    cases h
  | succ f ih =>
    intro m t b u h
    simp only [runSimplify] at h
    cases hstep : stepF ops m t with
    | none =>
      rw [hstep] at h
      cases h
    | some r =>
      cases r with
      | inl p =>
        rcases p with ⟨b', u'⟩
        rw [hstep] at h
        injection h with h2
        have hu : u' = u := congrArg Prod.snd h2
        subst hu
        exact stepF_shape hstep
      | inr q =>
        rcases q with ⟨m', t'⟩
        rw [hstep] at h
        exact sameShape_trans (stepF_shape hstep) (ih m' t' h)

theorem runSimplify_marker [Inhabited T] [Inhabited VT] {ops : VTOps VT T} :
    ∀ (f : Nat) (m : SMode) (t : SequentialValueTree State T VT) {b : Bool}
      {u : SequentialValueTree State T VT},
    runSimplify ops f m t = some (b, u) → NoNewCR t u := by
  intro f
  induction f with
  | zero =>
    intro m t b u h
    cases h
  | succ f ih =>
    intro m t b u h
    simp only [runSimplify] at h
    cases hstep : stepF ops m t with
    | none =>
      rw [hstep] at h
      cases h
    | some r =>
      cases r with
      | inl p =>
        rcases p with ⟨b', u'⟩
        rw [hstep] at h
        injection h with h2
        have hu : u' = u := congrArg Prod.snd h2
        subst hu
        exact stepF_marker hstep
      | inr q =>
        rcases q with ⟨m', t'⟩
        rw [hstep] at h
        exact noNewCR_trans (stepF_marker hstep) (ih m' t' h)

theorem runSimplify_falseExit [Inhabited T] [Inhabited VT] {ops : VTOps VT T} :
    ∀ (f : Nat) (m : SMode) (t : SequentialValueTree State T VT)
      {u : SequentialValueTree State T VT},
    runSimplify ops f m t = some (false, u) → QExit ops u := by
  intro f
  induction f with
  | zero =>
    intro m t u h
    cases h
  | succ f ih =>
    intro m t u h
    simp only [runSimplify] at h
    cases hstep : stepF ops m t with
    | none =>
      rw [hstep] at h
      cases h
    | some r =>
      cases r with
      | inl p =>
        rcases p with ⟨b', u'⟩
        rw [hstep] at h
        injection h with h2
        have hb : b' = false := congrArg Prod.fst h2
        have hu : u' = u := congrArg Prod.snd h2
        subst hb
        subst hu
        exact stepF_falseExit hstep
      | inr q =>
        rcases q with ⟨m', t'⟩
        rw [hstep] at h
        exact ih m' t' h

/-! ### `complicate` lemmas -/

/-- Case analysis of `complicate`. -/
theorem complicate_spec [Inhabited T] [Inhabited VT] (ops : VTOps VT T)
    (t : SequentialValueTree State T VT) :
    (t.prev_shrink = none → complicate ops t = (false, t)) ∧
    (∀ ix, t.prev_shrink = some (DeleteTransition ix) →
      complicate ops t = (true,
        { t with included_transitions := bitSet t.included_transitions ix,
                 shrinkable_transitions := bitSet t.shrinkable_transitions ix,
                 prev_shrink := none })) ∧
    (∀ ix rb rv, t.prev_shrink = some (ShrinkTransition ix) →
      ops.vtComplicate (t.transitions.getD ix default) = (rb, rv) →
      ((rb = false ∧ complicate ops t = (false,
          { t with transitions := t.transitions.set ix rv,
                   prev_shrink := none })) ∨
       (rb = true ∧ check_acceptable ops
            { t with transitions := t.transitions.set ix rv,
                     prev_shrink := some (ShrinkTransition ix) } (some ix) = true ∧
         complicate ops t = (true,
           { t with transitions := t.transitions.set ix rv,
                    acceptable_transitions :=
                      t.acceptable_transitions.set ix (Current, ops.vtCurrent rv),
                    prev_shrink := some (ShrinkTransition ix) })) ∨
       (rb = true ∧ check_acceptable ops
            { t with transitions := t.transitions.set ix rv,
                     prev_shrink := some (ShrinkTransition ix) } (some ix) = false ∧
         complicate ops t = (false,
           { t with transitions := t.transitions.set ix rv,
                    acceptable_transitions :=
                      setMarkerAt t.acceptable_transitions ix ComplicateRejected,
                    prev_shrink := none })))) := by
  refine ⟨?_, ?_, ?_⟩
  · intro hp
    simp only [complicate]
    rw [hp]
  · intro ix hp
    simp only [complicate]
    rw [hp]
  · intro ix rb rv hp hres
    have hmatch : complicate ops t =
        (if rb = true then
           (if check_acceptable ops
                { t with transitions := t.transitions.set ix rv,
                         prev_shrink := some (ShrinkTransition ix) } (some ix) = true
            then (true,
              { t with transitions := t.transitions.set ix rv,
                       acceptable_transitions := t.acceptable_transitions.set ix (Current, ops.vtCurrent rv),
                       prev_shrink := some (ShrinkTransition ix) })
            else (false,
              { t with transitions := t.transitions.set ix rv,
                       acceptable_transitions := setMarkerAt t.acceptable_transitions ix ComplicateRejected,
                       prev_shrink := none }))
         else (false,
           { t with transitions := t.transitions.set ix rv,
                    prev_shrink := none })) := by
      simp only [complicate]
      rw [hp]
      show (if (ops.vtComplicate (t.transitions.getD ix default)).1 = true then
              (if check_acceptable ops
                   { t with transitions := t.transitions.set ix (ops.vtComplicate (t.transitions.getD ix default)).2,
                            prev_shrink := some (ShrinkTransition ix) } (some ix) = true
               then (true,
                 { t with transitions := t.transitions.set ix (ops.vtComplicate (t.transitions.getD ix default)).2,
                          acceptable_transitions := t.acceptable_transitions.set ix (Current, ops.vtCurrent (ops.vtComplicate (t.transitions.getD ix default)).2),
                          prev_shrink := some (ShrinkTransition ix) })
               else (false,
                 { t with transitions := t.transitions.set ix (ops.vtComplicate (t.transitions.getD ix default)).2,
                          acceptable_transitions := setMarkerAt t.acceptable_transitions ix ComplicateRejected,
                          prev_shrink := none }))
            else (false,
              { t with transitions := t.transitions.set ix (ops.vtComplicate (t.transitions.getD ix default)).2,
                       prev_shrink := none })) = _
      rw [hres]
    rw [hmatch]
    cases rb with
    | false =>
      left
      exact ⟨rfl, if_neg (by simp)⟩
    | true =>
      rw [if_pos rfl]
      cases hchk : check_acceptable ops
          { t with transitions := t.transitions.set ix rv,
                   prev_shrink := some (ShrinkTransition ix) } (some ix) with
      | true =>
        right
        left
        exact ⟨rfl, rfl, if_pos rfl⟩
      | false =>
        right
        right
        exact ⟨rfl, rfl, if_neg (by simp)⟩


theorem complicate_inv [Inhabited T] [Inhabited VT] {ops : VTOps VT T}
    {t u : SequentialValueTree State T VT} {b : Bool}
    (h : complicate ops t = (b, u)) (hI : Inv ops t) : Inv ops u := by
  cases hp : t.prev_shrink with
  | none =>
    have h2 := ((complicate_spec ops t).1 hp).symm.trans h
    have hu : t = u := congrArg Prod.snd h2
    subst hu
    exact hI
  | some sh =>
    cases sh with
    | DeleteTransition ix =>
      have h2 := ((complicate_spec ops t).2.1 ix hp).symm.trans h
      have hu : _ = u := congrArg Prod.snd h2
      subst hu
      obtain ⟨hixn, htf, hchk⟩ := hI.prevD ix hp
      refine ⟨hI.lenAcc, ?_, ?_, hI.maxIx, ?_, ?_, ?_, hI.curS, ?_, ?_⟩
      · show (bitSet t.included_transitions ix).length = _
        rw [length_bitSet]
        exact hI.lenInc
      · show (bitSet t.shrinkable_transitions ix).length = _
        rw [length_bitSet]
        exact hI.lenShr
      · show t.min_size ≤ bitCount (bitSet t.included_transitions ix)
        exact Nat.le_trans hI.minLe (bitCount_set_ge _ _)
      · exact hchk
      · intro d hd
        replace hd : t.shrink = DeleteTransition d := hd
        obtain ⟨h1, h2b⟩ := hI.curD d hd
        exact ⟨h1, fun j hj => bitTest_set_of_true (h2b j hj)⟩
      · intro d hd
        replace hd : (none : Option Shrink) = some (DeleteTransition d) := hd
        cases hd
      · intro d hd
        replace hd : (none : Option Shrink) = some (ShrinkTransition d) := hd
        cases hd
    | ShrinkTransition ix =>
      have hpix : ix < t.transitions.length := hI.prevS ix hp
      rcases hres : ops.vtComplicate (t.transitions.getD ix default) with ⟨rb, rv⟩
      rcases (complicate_spec ops t).2.2 ix rb rv hp hres with
        ⟨hb, heq⟩ | ⟨hb, hchk, heq⟩ | ⟨hb, hchk, heq⟩
      · have h2 := heq.symm.trans h
        have hu : _ = u := congrArg Prod.snd h2
        subst hu
        refine ⟨?_, ?_, ?_, ?_, hI.minLe, ?_, ?_, ?_, ?_, ?_⟩
        · show t.acceptable_transitions.length = (t.transitions.set ix rv).length
          rw [List.length_set]
          exact hI.lenAcc
        · show t.included_transitions.length = (t.transitions.set ix rv).length
          rw [List.length_set]
          exact hI.lenInc
        · show t.shrinkable_transitions.length = (t.transitions.set ix rv).length
          rw [List.length_set]
          exact hI.lenShr
        · show t.max_ix + 1 = (t.transitions.set ix rv).length
          rw [List.length_set]
          exact hI.maxIx
        · exact (check_none_frame ops t _ _ _ _ _).trans hI.accOk
        · intro d hd
          replace hd : t.shrink = DeleteTransition d := hd
          obtain ⟨h1, h2b⟩ := hI.curD d hd
          refine ⟨?_, h2b⟩
          show d < (t.transitions.set ix rv).length
          rw [List.length_set]
          exact h1
        · intro d hd
          replace hd : t.shrink = ShrinkTransition d := hd
          show d < (t.transitions.set ix rv).length
          rw [List.length_set]
          exact hI.curS d hd
        · intro d hd
          replace hd : (none : Option Shrink) = some (DeleteTransition d) := hd
          cases hd
        · intro d hd
          replace hd : (none : Option Shrink) = some (ShrinkTransition d) := hd
          cases hd
      · have h2 := heq.symm.trans h
        have hu : _ = u := congrArg Prod.snd h2
        subst hu
        refine ⟨?_, ?_, ?_, ?_, hI.minLe, ?_, ?_, ?_, ?_, ?_⟩
        · show (t.acceptable_transitions.set ix _).length = (t.transitions.set ix rv).length
          rw [List.length_set, List.length_set]
          exact hI.lenAcc
        · show t.included_transitions.length = (t.transitions.set ix rv).length
          rw [List.length_set]
          exact hI.lenInc
        · show t.shrinkable_transitions.length = (t.transitions.set ix rv).length
          rw [List.length_set]
          exact hI.lenShr
        · show t.max_ix + 1 = (t.transitions.set ix rv).length
          rw [List.length_set]
          exact hI.maxIx
        · have hcache := check_acceptable_cache ops
            { t with transitions := t.transitions.set ix rv,
                     prev_shrink := some (ShrinkTransition ix) } ix Current rv
            (by show ix < t.acceptable_transitions.length
                rw [hI.lenAcc]
                exact hpix)
            (by show (t.transitions.set ix rv).get? ix = some rv
                exact get?_set_self_of_lt t.transitions rv hpix)
          exact hcache.trans hchk
        · intro d hd
          replace hd : t.shrink = DeleteTransition d := hd
          obtain ⟨h1, h2b⟩ := hI.curD d hd
          refine ⟨?_, h2b⟩
          show d < (t.transitions.set ix rv).length
          rw [List.length_set]
          exact h1
        · intro d hd
          replace hd : t.shrink = ShrinkTransition d := hd
          show d < (t.transitions.set ix rv).length
          rw [List.length_set]
          exact hI.curS d hd
        · intro d hd
          replace hd : (some (ShrinkTransition ix) : Option Shrink)
              = some (DeleteTransition d) := hd
          cases hd
        · intro d hd
          replace hd : (some (ShrinkTransition ix) : Option Shrink)
              = some (ShrinkTransition d) := hd
          cases hd
          show ix < (t.transitions.set ix rv).length
          rw [List.length_set]
          exact hpix
      · have h2 := heq.symm.trans h
        have hu : _ = u := congrArg Prod.snd h2
        subst hu
        refine ⟨?_, ?_, ?_, ?_, hI.minLe, ?_, ?_, ?_, ?_, ?_⟩
        · show (setMarkerAt t.acceptable_transitions ix _).length
              = (t.transitions.set ix rv).length
          rw [length_setMarkerAt, List.length_set]
          exact hI.lenAcc
        · show t.included_transitions.length = (t.transitions.set ix rv).length
          rw [List.length_set]
          exact hI.lenInc
        · show t.shrinkable_transitions.length = (t.transitions.set ix rv).length
          rw [List.length_set]
          exact hI.lenShr
        · show t.max_ix + 1 = (t.transitions.set ix rv).length
          rw [List.length_set]
          exact hI.maxIx
        · exact (check_none_frame_marker ops t _ _ _ _ _ _ _).trans hI.accOk
        · intro d hd
          replace hd : t.shrink = DeleteTransition d := hd
          obtain ⟨h1, h2b⟩ := hI.curD d hd
          refine ⟨?_, h2b⟩
          show d < (t.transitions.set ix rv).length
          rw [List.length_set]
          exact h1
        · intro d hd
          replace hd : t.shrink = ShrinkTransition d := hd
          show d < (t.transitions.set ix rv).length
          rw [List.length_set]
          exact hI.curS d hd
        · intro d hd
          replace hd : (none : Option Shrink) = some (DeleteTransition d) := hd
          cases hd
        · intro d hd
          replace hd : (none : Option Shrink) = some (ShrinkTransition d) := hd
          cases hd

theorem complicate_shape [Inhabited T] [Inhabited VT] {ops : VTOps VT T}
    {t u : SequentialValueTree State T VT} {b : Bool}
    (h : complicate ops t = (b, u)) : SameShape t u := by
  cases hp : t.prev_shrink with
  | none =>
    have h2 := ((complicate_spec ops t).1 hp).symm.trans h
    have hu : t = u := congrArg Prod.snd h2
    subst hu
    exact sameShape_refl t
  | some sh =>
    cases sh with
    | DeleteTransition ix =>
      have h2 := ((complicate_spec ops t).2.1 ix hp).symm.trans h
      have hu : _ = u := congrArg Prod.snd h2
      subst hu
      exact ⟨rfl, rfl, rfl, rfl, rfl, rfl, length_bitSet _ _, length_bitSet _ _, rfl⟩
    | ShrinkTransition ix =>
      rcases hres : ops.vtComplicate (t.transitions.getD ix default) with ⟨rb, rv⟩
      rcases (complicate_spec ops t).2.2 ix rb rv hp hres with
        ⟨hb, heq⟩ | ⟨hb, hchk, heq⟩ | ⟨hb, hchk, heq⟩
      all_goals have h2 := heq.symm.trans h
      all_goals have hu : _ = u := congrArg Prod.snd h2
      all_goals subst hu
      · exact ⟨rfl, rfl, rfl, rfl, rfl, List.length_set _ _ _, rfl, rfl, rfl⟩
      · exact ⟨rfl, rfl, rfl, rfl, rfl, List.length_set _ _ _, rfl, rfl,
          List.length_set _ _ _⟩
      · exact ⟨rfl, rfl, rfl, rfl, rfl, List.length_set _ _ _, rfl, rfl,
          length_setMarkerAt _ _ _⟩

theorem complicate_markerC [Inhabited T] [Inhabited VT] {ops : VTOps VT T}
    {t u : SequentialValueTree State T VT} {b : Bool}
    (h : complicate ops t = (b, u)) : NoNewSR t u := by
  cases hp : t.prev_shrink with
  | none =>
    have h2 := ((complicate_spec ops t).1 hp).symm.trans h
    have hu : t = u := congrArg Prod.snd h2
    subst hu
    exact fun i hne => absurd rfl hne
  | some sh =>
    cases sh with
    | DeleteTransition ix =>
      have h2 := ((complicate_spec ops t).2.1 ix hp).symm.trans h
      have hu : _ = u := congrArg Prod.snd h2
      subst hu
      exact fun i hne => absurd rfl hne
    | ShrinkTransition ix =>
      rcases hres : ops.vtComplicate (t.transitions.getD ix default) with ⟨rb, rv⟩
      rcases (complicate_spec ops t).2.2 ix rb rv hp hres with
        ⟨hb, heq⟩ | ⟨hb, hchk, heq⟩ | ⟨hb, hchk, heq⟩
      all_goals have h2 := heq.symm.trans h
      all_goals have hu : _ = u := congrArg Prod.snd h2
      all_goals subst hu
      · exact fun i hne => absurd rfl hne
      · intro i hne
        replace hne : ((t.acceptable_transitions.set ix
            (Current, ops.vtCurrent rv)).get? i).map Prod.fst
            ≠ (t.acceptable_transitions.get? i).map Prod.fst := hne
        show ((t.acceptable_transitions.set ix
            (Current, ops.vtCurrent rv)).get? i).map Prod.fst ≠ some SimplifyRejected
        rw [fst_set_changed _ _ _ _ hne]
        simp
      · intro i hne
        replace hne : ((setMarkerAt t.acceptable_transitions ix
            ComplicateRejected).get? i).map Prod.fst
            ≠ (t.acceptable_transitions.get? i).map Prod.fst := hne
        show ((setMarkerAt t.acceptable_transitions ix
            ComplicateRejected).get? i).map Prod.fst ≠ some SimplifyRejected
        rw [setMarkerAt] at hne ⊢
        rw [fst_set_changed _ _ _ _ hne]
        simp


/-! ## Generation lemmas -/

theorem genLoop_spec (ops : VTOps VT T) (pre : State → T → Bool)
    (nxt : State → T → State) :
    ∀ (props : List VT) (s : State) (k : Nat) {ts : List VT}
      {ats : List (TransitionState × T)} {s' : State},
    genLoop ops pre nxt props s k = some (ts, ats, s') →
    ts.length = k ∧ ats.length = k ∧
      replayOk pre nxt s (ats.map Prod.snd) = true := by
  intro props
  induction props with
  | nil =>
    intro s k ts ats s' h
    cases k with
    | zero =>
      injection h with h2
      have hts : ts = [] := (congrArg (fun p => p.1) h2).symm
      have hats : ats = [] := (congrArg (fun p => p.2.1) h2).symm
      subst hts
      subst hats
      exact ⟨rfl, rfl, rfl⟩
    | succ k =>
      cases h
  | cons vt rest ih =>
    intro s k ts ats s' h
    cases k with
    | zero =>
      injection h with h2
      have hts : ts = [] := (congrArg (fun p => p.1) h2).symm
      have hats : ats = [] := (congrArg (fun p => p.2.1) h2).symm
      subst hts
      subst hats
      exact ⟨rfl, rfl, rfl⟩
    | succ k =>
      simp only [genLoop] at h
      by_cases hpre : pre s (ops.vtCurrent vt) = true
      · rw [if_pos hpre] at h
        cases hg : genLoop ops pre nxt rest (nxt s (ops.vtCurrent vt)) k with
        | none =>
          rw [hg] at h
          cases h
        | some trip =>
          rcases trip with ⟨ts0, ats0, s0⟩
          rw [hg] at h
          injection h with h2
          have hts : vt :: ts0 = ts := congrArg (fun p => p.1) h2
          have hats : (Current, ops.vtCurrent vt) :: ats0 = ats :=
            congrArg (fun p => p.2.1) h2
          obtain ⟨l1, l2, l3⟩ := ih (nxt s (ops.vtCurrent vt)) k hg
          subst hts
          subst hats
          refine ⟨?_, ?_, ?_⟩
          · simp [l1]
          · simp [l2]
          · show replayOk pre nxt s (ops.vtCurrent vt :: ats0.map Prod.snd) = true
            simp only [replayOk]
            rw [if_pos hpre]
            exact l3
      · rw [if_neg hpre] at h
        exact ih s (Nat.succ k) h

theorem new_tree_spec (ops : VTOps VT T) (pre : State → T → Bool)
    (nxt : State → T → State) (s0 : State) (minSz : Nat) (props : List VT)
    (N : Nat) {t : SequentialValueTree State T VT}
    (h : new_tree ops pre nxt s0 minSz props N = some t) :
    t.initial_state = s0 ∧ t.preconditions = pre ∧ t.next = nxt ∧
    t.transitions.length = N ∧ t.acceptable_transitions.length = N ∧
    t.included_transitions = saturated N ∧
    t.shrinkable_transitions = saturated N ∧
    t.min_size = minSz ∧ t.max_ix = N - 1 ∧
    t.shrink = DeleteTransition (N - 1) ∧ t.prev_shrink = none ∧
    replayOk pre nxt s0 (t.acceptable_transitions.map Prod.snd) = true ∧
    1 ≤ N := by
  simp only [new_tree] at h
  cases hg : genLoop ops pre nxt props s0 N with
  | none =>
    rw [hg] at h
    cases h
  | some trip =>
    rcases trip with ⟨ts, ats, sf⟩
    rw [hg] at h
    cases N with
    | zero =>
      cases h
    | succ m =>
      injection h with h2
      subst h2
      obtain ⟨l1, l2, l3⟩ := genLoop_spec ops pre nxt props s0 (Nat.succ m) hg
      exact ⟨rfl, rfl, rfl, l1, l2, rfl, rfl, rfl, rfl, rfl, rfl, l3,
        Nat.succ_le_succ (Nat.zero_le m)⟩

theorem current_at_saturated (ops : VTOps VT T)
    (t : SequentialValueTree State T VT) {n : Nat}
    (hinc : t.included_transitions = saturated n)
    (hlen : t.acceptable_transitions.length ≤ n) :
    current_at ops t none = t.acceptable_transitions.map Prod.snd := by
  unfold current_at
  rw [hinc, currentAtGo_eq_filterZip, List.drop_zero]
  show filterZip (List.replicate n true) _ = _
  exact filterZip_replicate_true _ n (by simpa using hlen)

theorem new_tree_inv (ops : VTOps VT T) (pre : State → T → Bool)
    (nxt : State → T → State) (s0 : State) (minSz : Nat) (props : List VT)
    (N : Nat) (hmin : minSz ≤ N) {t : SequentialValueTree State T VT}
    (h : new_tree ops pre nxt s0 minSz props N = some t) : Inv ops t := by
  obtain ⟨hi, hpre, hnxt, hlt, hla, hinc, hshr, hms, hmx, hsk, hprev, hreplay, hN⟩ :=
    new_tree_spec ops pre nxt s0 minSz props N h
  refine ⟨?_, ?_, ?_, ?_, ?_, ?_, ?_, ?_, ?_, ?_⟩
  · rw [hla, hlt]
  · rw [hinc, length_saturated, hlt]
  · rw [hshr, length_saturated, hlt]
  · rw [hmx, hlt]
    omega
  · rw [hinc, bitCount_saturated, hms]
    exact hmin
  · show replayOk t.preconditions t.next t.initial_state (current_at ops t none) = true
    rw [current_at_saturated ops t hinc (Nat.le_of_eq hla), hpre, hnxt, hi]
    exact hreplay
  · intro d hd
    rw [hsk] at hd
    cases hd
    constructor
    · rw [hlt]
      omega
    · intro j hj
      rw [hinc]
      exact bitTest_saturated (by omega)
  · intro d hd
    rw [hsk] at hd
    cases hd
  · intro d hd
    rw [hprev] at hd
    cases hd
  · intro d hd
    rw [hprev] at hd
    cases hd

/-! ## Reachability -/

/-- The trees reachable from `t0` by any interleaving of (terminating)
`simplify()` and `complicate()` calls. -/
inductive Reach [Inhabited T] [Inhabited VT] (ops : VTOps VT T)
    (t0 : SequentialValueTree State T VT) :
    SequentialValueTree State T VT → Prop where
  | refl : Reach ops t0 t0
  | stepSimplify {t u : SequentialValueTree State T VT} (h : Reach ops t0 t)
      (f : Nat) (b : Bool) (hs : simplifyFuel ops f t = some (b, u)) :
      Reach ops t0 u
  | stepComplicate {t u : SequentialValueTree State T VT} (h : Reach ops t0 t)
      (b : Bool) (hc : complicate ops t = (b, u)) : Reach ops t0 u

theorem reach_inv [Inhabited T] [Inhabited VT] {ops : VTOps VT T}
    {t0 t : SequentialValueTree State T VT} (hI : Inv ops t0)
    (hr : Reach ops t0 t) : Inv ops t := by
  induction hr with
  | refl => exact hI
  | stepSimplify h f b hs ih => exact runSimplify_inv f SMode.simplifyCall _ hs ih
  | stepComplicate h b hc ih => exact complicate_inv hc ih

theorem reach_shape [Inhabited T] [Inhabited VT] {ops : VTOps VT T}
    {t0 t : SequentialValueTree State T VT} (hr : Reach ops t0 t) :
    SameShape t0 t := by
  induction hr with
  | refl => exact sameShape_refl t0
  | stepSimplify h f b hs ih =>
    exact sameShape_trans ih (runSimplify_shape f SMode.simplifyCall _ hs)
  | stepComplicate h b hc ih => exact sameShape_trans ih (complicate_shape hc)

/-! ## Claim theorems -/

/-- C1.  For every tree produced by `new_tree` (with a sampled length at
least `min_size`, as the uniform sampler over `[min_size, max_size]`
guarantees) and every sequence of `simplify()`/`complicate()` calls on
it, replaying the transition list returned by `current()` from
`initial_state` — checking the precondition at each step and advancing
the state with the transition-application function `next` — succeeds at
every step.  This covers in particular a `complicate()` that undoes a
deletion, which restores the slot without running the acceptability
replay. -/
theorem C1_current_always_replays [Inhabited T] [Inhabited VT]
    (ops : VTOps VT T) (pre : State → T → Bool) (nxt : State → T → State)
    (s0 : State) (minSz : Nat) (props : List VT) (N : Nat)
    (hmin : minSz ≤ N) {t0 t : SequentialValueTree State T VT}
    (hgen : new_tree ops pre nxt s0 minSz props N = some t0)
    (hreach : Reach ops t0 t) :
    replayOk t.preconditions t.next t.initial_state (current_at ops t none)
      = true :=
  (reach_inv (new_tree_inv ops pre nxt s0 minSz props N hmin hgen) hreach).accOk

/-- C2.  For every generated tree the number of set bits in the
inclusion bitset stays within `[min_size, max_size]` (where `N`, the
sampled length, lies in that range) after generation and after every
`simplify()`/`complicate()` call; in particular no delete move drops the
included count below `min_size`. -/
theorem C2_inclusion_count_bounds [Inhabited T] [Inhabited VT]
    (ops : VTOps VT T) (pre : State → T → Bool) (nxt : State → T → State)
    (s0 : State) (minSz maxSz : Nat) (props : List VT) (N : Nat)
    (hmin : minSz ≤ N) (hmax : N ≤ maxSz)
    {t0 t : SequentialValueTree State T VT}
    (hgen : new_tree ops pre nxt s0 minSz props N = some t0)
    (hreach : Reach ops t0 t) :
    minSz ≤ bitCount t.included_transitions ∧
      bitCount t.included_transitions ≤ maxSz := by
  have hI := reach_inv (new_tree_inv ops pre nxt s0 minSz props N hmin hgen) hreach
  have hsh := reach_shape hreach
  obtain ⟨-, -, -, hms, -, hlt, -, -, -⟩ := hsh
  obtain ⟨-, -, -, hlt0, -, -, -, hms0, -, -, -, -, -⟩ :=
    new_tree_spec ops pre nxt s0 minSz props N hgen
  constructor
  · have h1 := hI.minLe
    rw [hms, hms0] at h1
    exact h1
  · have h2 := bitCount_le_length t.included_transitions
    rw [hI.lenInc, hlt, hlt0] at h2
    omega


/-- C7.  Generation postcondition: with the uniformly sampled target
length `N` taken as a parameter (the sampler `sample_uniform_incl` is
outside the modelled core), a successful `new_tree` returns a tree with
exactly `N` slots, each transition accepted by the precondition against
the model state current at its sampling point (so the whole cached
sequence replays from `initial_state`), both bitsets fully saturated,
the cursor at `DeleteTransition (N-1)` and no remembered move; and a
proposal rejected by the precondition is skipped as a local rejection —
generation resamples from the same model state instead of failing. -/
theorem C7_generation_postconditions [Inhabited T] [Inhabited VT]
    (ops : VTOps VT T) (pre : State → T → Bool) (nxt : State → T → State)
    (s0 : State) (minSz : Nat) (props : List VT) (N : Nat)
    {t : SequentialValueTree State T VT}
    (h : new_tree ops pre nxt s0 minSz props N = some t) :
    (t.transitions.length = N ∧ t.acceptable_transitions.length = N ∧
     t.included_transitions = saturated N ∧
     t.shrinkable_transitions = saturated N ∧
     t.min_size = minSz ∧
     t.shrink = DeleteTransition (N - 1) ∧ t.prev_shrink = none ∧
     replayOk pre nxt s0 (t.acceptable_transitions.map Prod.snd) = true ∧
     current_at ops t none = t.acceptable_transitions.map Prod.snd) ∧
    (∀ (vt : VT) (rest : List VT) (s : State) (k : Nat),
      pre s (ops.vtCurrent vt) = false →
      genLoop ops pre nxt (vt :: rest) s (Nat.succ k)
        = genLoop ops pre nxt rest s (Nat.succ k)) := by
  obtain ⟨hi, hpre, hnxt, hlt, hla, hinc, hshr, hms, hmx, hsk, hprev, hreplay, hN⟩ :=
    new_tree_spec ops pre nxt s0 minSz props N h
  constructor
  · exact ⟨hlt, hla, hinc, hshr, hms, hsk, hprev, hreplay,
      current_at_saturated ops t hinc (by rw [hla])⟩
  · intro vt rest s k hf
    simp only [genLoop]
    rw [if_neg (by simp [hf])]

/-- C5.  Delete phase of `simplify()`: when the cursor is
`DeleteTransition ix` and the included count exceeds `min_size`,
`try_simplify` speculatively clears slot `ix` and replays acceptability;
on a clean replay it commits (remembering the move, advancing the cursor
to `DeleteTransition (ix-1)` — or `ShrinkTransition 0` when `ix = 0` —
and clearing slot `ix` from the shrinkable set) and returns true; on a
failed replay it restores slot `ix` and recursively retries deletion at
the advanced cursor (falling into the shrink phase below index 0), so
deletion proceeds from the tail toward the front.  The first conjunct
ties this to `simplify()`, which enters `try_simplify` whenever not all
included slots are rejected. -/
theorem C5_delete_phase [Inhabited T] [Inhabited VT] (ops : VTOps VT T)
    {t : SequentialValueTree State T VT} {ix : Nat} (f : Nat)
    (hsk : t.shrink = DeleteTransition ix)
    (hcnt : t.min_size < bitCount t.included_transitions) :
    (all_rejected t = false →
      simplifyFuel ops (Nat.succ f) t = try_simplifyFuel ops f t) ∧
    (check_acceptable ops
        { t with included_transitions := bitClear t.included_transitions ix,
                 prev_shrink := some (DeleteTransition ix),
                 shrink := if ix = 0 then ShrinkTransition 0
                           else DeleteTransition (ix - 1) } none = true →
      try_simplifyFuel ops (Nat.succ f) t = some (true,
        { t with included_transitions := bitClear t.included_transitions ix,
                 shrinkable_transitions := bitClear t.shrinkable_transitions ix,
                 prev_shrink := some (DeleteTransition ix),
                 shrink := if ix = 0 then ShrinkTransition 0
                           else DeleteTransition (ix - 1) })) ∧
    (check_acceptable ops
        { t with included_transitions := bitClear t.included_transitions ix,
                 prev_shrink := some (DeleteTransition ix),
                 shrink := if ix = 0 then ShrinkTransition 0
                           else DeleteTransition (ix - 1) } none = false →
      bitTest t.included_transitions ix = true →
      try_simplifyFuel ops (Nat.succ f) t = try_simplifyFuel ops f
        { t with prev_shrink := none,
                 shrink := if ix = 0 then ShrinkTransition 0
                           else DeleteTransition (ix - 1) }) := by
  have hstep : stepF ops SMode.tryShrink t = some (deleteStep ops t ix) := by
    simp only [stepF]
    rw [hsk]
    show (if bitCount t.included_transitions = t.min_size then
            some (Sum.inr (SMode.shrinkWhile, { t with shrink := ShrinkTransition 0 }))
          else some (deleteStep ops t ix)) = some (deleteStep ops t ix)
    rw [if_neg (by omega)]
  refine ⟨?_, ?_, ?_⟩
  · intro har
    have hstep0 : stepF ops SMode.simplifyCall t
        = some (Sum.inr (SMode.tryShrink, t)) := by
      simp only [stepF]
      rw [if_neg (by simp [har])]
    simp only [simplifyFuel, try_simplifyFuel, runSimplify]
    rw [hstep0]
  · intro hchk
    have hds : deleteStep ops t ix = Sum.inl (true,
        { t with included_transitions := bitClear t.included_transitions ix,
                 shrinkable_transitions := bitClear t.shrinkable_transitions ix,
                 prev_shrink := some (DeleteTransition ix),
                 shrink := if ix = 0 then ShrinkTransition 0
                           else DeleteTransition (ix - 1) }) := by
      simp only [deleteStep]
      rw [if_pos hchk]
    simp only [try_simplifyFuel, runSimplify]
    rw [hstep, hds]
  · intro hchk htest
    have hds : deleteStep ops t ix = Sum.inr (SMode.tryShrink,
        { t with included_transitions :=
                   bitSet (bitClear t.included_transitions ix) ix,
                 prev_shrink := none,
                 shrink := if ix = 0 then ShrinkTransition 0
                           else DeleteTransition (ix - 1) }) := by
      simp only [deleteStep]
      rw [if_neg (by simp [hchk])]
    simp only [try_simplifyFuel, runSimplify]
    rw [hstep, hds, set_clear_restore htest]

/-- C4.  `complicate()` undoes exactly the most recently committed
`simplify()` move: with no remembered move it returns false and changes
nothing; a remembered deletion at `ix` is restored to both bitsets, the
remembered move is cleared (one-shot: an immediately following
`complicate()` returns false) and true is returned; a remembered shrink
at `ix` asks the slot's generator to complicate — on refusal the
remembered move is cleared and false returned; on acceptance the
restored value is replayed: if valid it is cached as `Current` with the
remembered move kept and true returned, if invalid the slot is marked
`ComplicateRejected`, the remembered move cleared and false returned. -/
theorem C4_complicate_undoes_last_move [Inhabited T] [Inhabited VT]
    (ops : VTOps VT T) (t : SequentialValueTree State T VT) :
    (t.prev_shrink = none → complicate ops t = (false, t)) ∧
    (∀ ix, t.prev_shrink = some (DeleteTransition ix) →
      ∃ u, complicate ops t = (true, u) ∧
        u.included_transitions = bitSet t.included_transitions ix ∧
        u.shrinkable_transitions = bitSet t.shrinkable_transitions ix ∧
        u.prev_shrink = none ∧
        complicate ops u = (false, u)) ∧
    (∀ ix rb rv, t.prev_shrink = some (ShrinkTransition ix) →
      ops.vtComplicate (t.transitions.getD ix default) = (rb, rv) →
      ((rb = false → ∃ u, complicate ops t = (false, u) ∧
          u.prev_shrink = none) ∧
       (rb = true → check_acceptable ops
            { t with transitions := t.transitions.set ix rv,
                     prev_shrink := some (ShrinkTransition ix) } (some ix) = true →
          ∃ u, complicate ops t = (true, u) ∧
            u.prev_shrink = some (ShrinkTransition ix) ∧
            (ix < t.acceptable_transitions.length →
              u.acceptable_transitions.get? ix
                = some (Current, ops.vtCurrent rv))) ∧
       (rb = true → check_acceptable ops
            { t with transitions := t.transitions.set ix rv,
                     prev_shrink := some (ShrinkTransition ix) } (some ix) = false →
          ∃ u, complicate ops t = (false, u) ∧
            u.prev_shrink = none ∧
            (ix < t.acceptable_transitions.length →
              markerAt u ix = some ComplicateRejected)))) := by
  refine ⟨(complicate_spec ops t).1, ?_, ?_⟩
  · intro ix hp
    refine ⟨_, (complicate_spec ops t).2.1 ix hp, rfl, rfl, rfl, ?_⟩
    exact (complicate_spec ops
      { t with included_transitions := bitSet t.included_transitions ix,
               shrinkable_transitions := bitSet t.shrinkable_transitions ix,
               prev_shrink := none }).1 rfl
  · intro ix rb rv hp hres
    rcases (complicate_spec ops t).2.2 ix rb rv hp hres with
      ⟨hb, heq⟩ | ⟨hb, hchk, heq⟩ | ⟨hb, hchk, heq⟩
    · subst hb
      refine ⟨fun _ => ⟨_, heq, rfl⟩, fun hbad _ => ?_, fun hbad _ => ?_⟩
      · cases hbad
      · cases hbad
    · subst hb
      refine ⟨fun hbad => ?_, fun _ hchk2 => ⟨_, heq, rfl, fun hlen => ?_⟩,
        fun _ hchk2 => ?_⟩
      · cases hbad
      · show (t.acceptable_transitions.set ix (Current, ops.vtCurrent rv)).get? ix
            = some (Current, ops.vtCurrent rv)
        exact get?_set_self_of_lt t.acceptable_transitions _ hlen
      · rw [hchk] at hchk2
        cases hchk2
    · subst hb
      refine ⟨fun hbad => ?_, fun _ hchk2 => ?_, fun _ _ => ⟨_, heq, rfl, fun hlen => ?_⟩⟩
      · cases hbad
      · rw [hchk] at hchk2
        cases hchk2
      · show ((setMarkerAt t.acceptable_transitions ix
            ComplicateRejected).get? ix).map Prod.fst = some ComplicateRejected
        rw [markerAt_setMarkerAt, if_pos ⟨rfl, hlen⟩]


/-! ### The rotation scan as a first-find over the wraparound order -/

theorem ttfaGo_eq_rotation [Inhabited T] [Inhabited VT] (ops : VTOps VT T)
    (t : SequentialValueTree State T VT) (start : Nat)
    (hstart : start ≤ t.max_ix) :
    ∀ (d cur f : Nat), cur ≤ t.max_ix → distTo start t.max_ix cur = d →
      d ≤ f →
    ttfaGo ops t start f cur =
      match (rotationOrder t.max_ix cur d).find?
          (fun j => bitTest t.included_transitions j &&
                    check_acceptable ops t (some j)) with
      | some j => (true, cacheCurrent ops t j)
      | none => (false, t) := by
  intro d
  induction d with
  | zero =>
    intro cur f hcur hd _
    exfalso
    simp only [distTo] at hd
    split at hd <;> omega
  | succ d ih =>
    intro cur f hcur hd hf
    obtain ⟨f', rfl⟩ : ∃ f', f = f' + 1 := ⟨f - 1, by omega⟩
    simp only [ttfaGo, rotationOrder, List.find?]
    cases hp : bitTest t.included_transitions cur &&
        check_acceptable ops t (some cur) with
    | true => rfl
    | false =>
      rw [if_neg Bool.false_ne_true]
      by_cases hcm : cur = t.max_ix
      · rw [if_pos hcm]
        by_cases hns : (0 : Nat) = start
        · have hd0 : d = 0 := by
            simp only [distTo] at hd
            split at hd <;> omega
          subst hd0
          rw [if_pos hns]
          rfl
        · rw [if_neg hns]
          have hdist : distTo start t.max_ix 0 = d := by
            simp only [distTo] at hd ⊢
            split at hd <;> split <;> omega
          exact ih 0 f' (Nat.zero_le _) hdist (by omega)
      · rw [if_neg hcm]
        by_cases hns : cur + 1 = start
        · have hd0 : d = 0 := by
            simp only [distTo] at hd
            split at hd <;> omega
          subst hd0
          rw [if_pos hns]
          rfl
        · rw [if_neg hns]
          have hdist : distTo start t.max_ix (cur + 1) = d := by
            simp only [distTo] at hd ⊢
            split at hd <;> split <;> omega
          exact ih (cur + 1) f' (by omega) hdist (by omega)

/-- C6.  Exhaustion rotation: when at a `simplify()` call every
currently-included slot's marker is `SimplifyRejected` or
`ComplicateRejected` and the last applied move was
`ShrinkTransition ix`, `simplify()` performs a wraparound scan over the
slot indices starting at `ix` (wrapping past `max_ix` back to `0`),
testing for each included slot whether substituting that slot's current
generator value replays acceptably; the first such slot found has that
value adopted as its new `Current` cached value and true is returned,
and if the full loop finds no acceptable substitution, false is
returned with the tree unchanged. -/
theorem C6_exhaustion_rotation [Inhabited T] [Inhabited VT]
    (ops : VTOps VT T) {t : SequentialValueTree State T VT} {ix : Nat}
    (f : Nat)
    (har : all_rejected t = true)
    (hp : t.prev_shrink = some (ShrinkTransition ix))
    (hix : ix ≤ t.max_ix) :
    simplifyFuel ops (Nat.succ f) t = some
      (match (rotationOrder t.max_ix ix (t.max_ix + 1)).find?
          (fun j => bitTest t.included_transitions j &&
                    check_acceptable ops t (some j)) with
       | some j => (true, cacheCurrent ops t j)
       | none => (false, t)) := by
  have hstep : stepF ops SMode.simplifyCall t
      = some (Sum.inl (try_to_find_acceptable ops t ix)) := by
    simp only [stepF]
    rw [if_pos har, hp]
  have hrot : try_to_find_acceptable ops t ix =
      match (rotationOrder t.max_ix ix (t.max_ix + 1)).find?
          (fun j => bitTest t.included_transitions j &&
                    check_acceptable ops t (some j)) with
      | some j => (true, cacheCurrent ops t j)
      | none => (false, t) := by
    have hd : distTo ix t.max_ix ix = t.max_ix + 1 := by
      simp only [distTo]
      split <;> omega
    exact ttfaGo_eq_rotation ops t ix hix (t.max_ix + 1) ix (t.max_ix + 1)
      hix hd (Nat.le_refl _)
  simp only [simplifyFuel, runSimplify]
  rw [hstep, hrot]


/-! ### Exhaustion is idempotent -/

theorem runSimplify_succ_inr [Inhabited T] [Inhabited VT] {ops : VTOps VT T}
    {m m' : SMode} {t t' : SequentialValueTree State T VT}
    (h : stepF ops m t = some (Sum.inr (m', t'))) (f : Nat) :
    runSimplify ops (f + 1) m t = runSimplify ops f m' t' := by
  simp only [runSimplify]
  rw [h]

theorem runSimplify_succ_inl [Inhabited T] [Inhabited VT] {ops : VTOps VT T}
    {m : SMode} {t : SequentialValueTree State T VT}
    {r : Bool × SequentialValueTree State T VT}
    (h : stepF ops m t = some (Sum.inl r)) (f : Nat) :
    runSimplify ops (f + 1) m t = some r := by
  simp only [runSimplify]
  rw [h]

/-- In a tree where every included slot is rejected and the rotation
search (when the remembered move enables one) finds nothing,
`simplify()` returns false and leaves the tree unchanged; this
reproduces the same configuration, so it happens on every later call
too. -/
theorem simplify_allRejected_stuck [Inhabited T] [Inhabited VT]
    {ops : VTOps VT T} {t : SequentialValueTree State T VT}
    (har : all_rejected t = true)
    (httfa : ∀ ix, t.prev_shrink = some (ShrinkTransition ix) →
      try_to_find_acceptable ops t ix = (false, t)) :
    ∀ f, 1 ≤ f → simplifyFuel ops f t = some (false, t) := by
  intro f hf
  obtain ⟨f', rfl⟩ : ∃ f', f = f' + 1 := ⟨f - 1, by omega⟩
  have hstep : stepF ops SMode.simplifyCall t = some (Sum.inl (false, t)) := by
    simp only [stepF]
    rw [if_pos har]
    cases hp : t.prev_shrink with
    | none => rfl
    | some sh =>
      cases sh with
      | DeleteTransition ix => rfl
      | ShrinkTransition ix =>
        show some (Sum.inl (try_to_find_acceptable ops t ix))
            = some (Sum.inl (false, t))
        rw [httfa ix hp]
  exact runSimplify_succ_inl hstep f'

/-- In a tree whose shrinkable set is empty while the cursor is in the
shrink phase and not every included slot is rejected, `simplify()`
returns false with the tree unchanged (three interpreter steps reach
the `count() == 0` exit of the while loop). -/
theorem simplify_shrinkEmpty_eval [Inhabited T] [Inhabited VT]
    (ops : VTOps VT T) {t : SequentialValueTree State T VT} {ix : Nat}
    (har : all_rejected t = false)
    (hcnt : bitCount t.shrinkable_transitions = 0)
    (hsk : t.shrink = ShrinkTransition ix) :
    ∀ f, simplifyFuel ops f t = if 3 ≤ f then some (false, t) else none := by
  have hA : stepF ops SMode.simplifyCall t
      = some (Sum.inr (SMode.tryShrink, t)) := by
    simp only [stepF]
    rw [if_neg (by simp [har])]
  have hB : stepF ops SMode.tryShrink t
      = some (Sum.inr (SMode.shrinkWhile, t)) := by
    simp only [stepF]
    rw [hsk]
  have hC : stepF ops SMode.shrinkWhile t = some (Sum.inl (false, t)) := by
    simp only [stepF]
    rw [hsk]
    show (if bitCount t.shrinkable_transitions = 0
        then some (Sum.inl (false, t)) else _) = some (Sum.inl (false, t))
    rw [if_pos hcnt]
  intro f
  match f with
  | 0 => rfl
  | 1 =>
    show runSimplify ops (0 + 1) SMode.simplifyCall t = _
    rw [runSimplify_succ_inr hA]
    rfl
  | 2 =>
    show runSimplify ops (1 + 1) SMode.simplifyCall t = _
    rw [runSimplify_succ_inr hA]
    show runSimplify ops (0 + 1) SMode.tryShrink t = _
    rw [runSimplify_succ_inr hB]
    rfl
  | (g + 3) =>
    show runSimplify ops (g + 2 + 1) SMode.simplifyCall t = _
    rw [runSimplify_succ_inr hA]
    show runSimplify ops (g + 1 + 1) SMode.tryShrink t = _
    rw [runSimplify_succ_inr hB]
    show runSimplify ops (g + 1) SMode.shrinkWhile t = _
    rw [runSimplify_succ_inl hC]
    rw [if_pos (by omega)]

/-- A second consecutive false return from `simplify()` on an
all-rejected tree leaves the tree unchanged and pins the rotation
search as fruitless. -/
theorem stuck_second_call [Inhabited T] [Inhabited VT] {ops : VTOps VT T}
    {s1 s2 : SequentialValueTree State T VT} (f2 : Nat)
    (har : all_rejected s1 = true)
    (h2 : simplifyFuel ops f2 s1 = some (false, s2)) :
    s2 = s1 ∧ ∀ ix, s1.prev_shrink = some (ShrinkTransition ix) →
      try_to_find_acceptable ops s1 ix = (false, s1) := by
  cases f2 with
  | zero => cases h2
  | succ f2' =>
    cases hp : s1.prev_shrink with
    | none =>
      have hstep : stepF ops SMode.simplifyCall s1
          = some (Sum.inl (false, s1)) := by
        simp only [stepF]
        rw [if_pos har, hp]
      have he : simplifyFuel ops (f2' + 1) s1 = some (false, s1) :=
        runSimplify_succ_inl hstep f2'
      rw [he] at h2
      injection h2 with h2'
      refine ⟨(congrArg Prod.snd h2').symm, ?_⟩
      intro ix hp'
      cases hp'
    | some sh =>
      cases sh with
      | DeleteTransition ix0 =>
        have hstep : stepF ops SMode.simplifyCall s1
            = some (Sum.inl (false, s1)) := by
          simp only [stepF]
          rw [if_pos har, hp]
        have he : simplifyFuel ops (f2' + 1) s1 = some (false, s1) :=
          runSimplify_succ_inl hstep f2'
        rw [he] at h2
        injection h2 with h2'
        refine ⟨(congrArg Prod.snd h2').symm, ?_⟩
        intro ix hp'
        cases hp'
      | ShrinkTransition ix0 =>
        have hstep : stepF ops SMode.simplifyCall s1
            = some (Sum.inl (try_to_find_acceptable ops s1 ix0)) := by
          simp only [stepF]
          rw [if_pos har, hp]
        have he : simplifyFuel ops (f2' + 1) s1
            = some (try_to_find_acceptable ops s1 ix0) :=
          runSimplify_succ_inl hstep f2'
        rw [he] at h2
        injection h2 with h2'
        have hs2 : s2 = s1 := ttfa_false_eq h2'
        subst hs2
        refine ⟨rfl, ?_⟩
        intro ix hp'
        injection hp' with e
        injection e with e2
        subst e2
        exact h2'

/-- C8.  Idempotence of exhaustion: once `simplify()` has returned
false twice in a row with no intervening `complicate()`, every further
`simplify()` call (with enough fuel for the three interpreter steps a
call needs) also returns false, with the tree unchanged. -/
theorem C8_exhaustion_idempotent [Inhabited T] [Inhabited VT]
    (ops : VTOps VT T) {s s1 s2 : SequentialValueTree State T VT}
    (f1 f2 : Nat)
    (h1 : simplifyFuel ops f1 s = some (false, s1))
    (h2 : simplifyFuel ops f2 s1 = some (false, s2)) :
    ∀ g, 3 ≤ g → simplifyFuel ops g s2 = some (false, s2) := by
  have hq1 : QExit ops s1 := runSimplify_falseExit f1 SMode.simplifyCall s h1
  by_cases har1 : all_rejected s1 = true
  · obtain ⟨hs2, httfa⟩ := stuck_second_call f2 har1 h2
    subst hs2
    intro g hg
    exact simplify_allRejected_stuck har1 httfa g (by omega)
  · rcases hq1 with ⟨har, _⟩ | ⟨hcnt, ix, hsk⟩
    · exact absurd har har1
    · have har1f : all_rejected s1 = false := by
        revert har1
        cases all_rejected s1 <;> simp
      have heval := simplify_shrinkEmpty_eval ops har1f hcnt hsk
      rw [heval f2] at h2
      by_cases hf2 : 3 ≤ f2
      · rw [if_pos hf2] at h2
        injection h2 with h2'
        have hs2 : s2 = s1 := (congrArg Prod.snd h2').symm
        subst hs2
        intro g hg
        rw [heval g, if_pos hg]
      · rw [if_neg hf2] at h2
        cases h2


/-! ### Observed-count truncation lemmas -/

theorem filterZip_nil_right {α : Type} (bs : List Bool) :
    filterZip bs ([] : List α) = [] := by
  cases bs <;> rfl

theorem filterZip_keepFirstIncluded {α : Type} :
    ∀ (l : List Bool) (m : Nat) (xs : List α),
    filterZip (keepFirstIncluded m l) xs = (filterZip l xs).take m := by
  intro l
  induction l with
  | nil =>
    intro m xs
    rw [show keepFirstIncluded m [] = [] from rfl, filterZip_nil_left,
      List.take_nil]
  | cons b bs ih =>
    intro m xs
    cases xs with
    | nil => rw [filterZip_nil_right, filterZip_nil_right, List.take_nil]
    | cons x xs' =>
      cases b with
      | false => exact ih m xs'
      | true =>
        cases m with
        | zero => exact ih 0 xs'
        | succ m' => exact congrArg (List.cons x) (ih m' xs')

theorem bitCount_cons_false (l : List Bool) :
    bitCount (false :: l) = bitCount l := rfl

theorem bitCount_cons_true (l : List Bool) :
    bitCount (true :: l) = bitCount l + 1 := rfl

theorem bitCount_keepFirstIncluded :
    ∀ (l : List Bool) (m : Nat),
    bitCount (keepFirstIncluded m l) = min m (bitCount l) := by
  intro l
  induction l with
  | nil =>
    intro m
    show (0 : Nat) = min m 0
    omega
  | cons b bs ih =>
    intro m
    cases b with
    | false =>
      show bitCount (false :: keepFirstIncluded m bs)
          = min m (bitCount (false :: bs))
      rw [bitCount_cons_false, bitCount_cons_false, ih]
    | true =>
      cases m with
      | zero =>
        show bitCount (false :: keepFirstIncluded 0 bs)
            = min 0 (bitCount (true :: bs))
        rw [bitCount_cons_false, bitCount_cons_true, ih]
        omega
      | succ m' =>
        show bitCount (true :: keepFirstIncluded m' bs)
            = min (m' + 1) (bitCount (true :: bs))
        rw [bitCount_cons_true, bitCount_cons_true, ih]
        omega

theorem replayOk_cons (pre : State → T → Bool) (nxt : State → T → State)
    (s : State) (x : T) (l : List T) :
    replayOk pre nxt s (x :: l)
      = (pre s x && replayOk pre nxt (nxt s x) l) := by
  simp only [replayOk]
  cases pre s x <;> simp

theorem replayOk_take (pre : State → T → Bool) (nxt : State → T → State) :
    ∀ (l : List T) (s : State), replayOk pre nxt s l = true →
    ∀ m, replayOk pre nxt s (l.take m) = true := by
  intro l
  induction l with
  | nil =>
    intro s _ m
    rw [List.take_nil]
    rfl
  | cons x rest ih =>
    intro s h m
    cases m with
    | zero => rfl
    | succ m' =>
      show replayOk pre nxt s (x :: rest.take m') = true
      rw [replayOk_cons] at h
      rw [replayOk_cons]
      rw [Bool.and_eq_true] at h
      rcases h with ⟨h1, h2⟩
      rw [h1, ih (nxt s x) h2 m']
      rfl

theorem current_at_none_eq_filterZip (ops : VTOps VT T)
    (t : SequentialValueTree State T VT) :
    current_at ops t none
      = filterZip t.included_transitions
          (t.acceptable_transitions.map Prod.snd) := by
  show currentAtGo ops t.included_transitions t.transitions none 0
      t.acceptable_transitions = _
  rw [currentAtGo_eq_filterZip, List.drop_zero]

/-- C3.  Observed-consumption feedback: the emitted sequence's iterator
increments the shared counter exactly once per element yielded (so
after pulling `k` elements the counter has advanced by
`min k (length)`), and truncating the inclusion bitset to its first
`max k min_size` included slots — the operation the feedback performs
directly, without running Acceptability Replay per removal — provably
keeps the candidate acceptable (the truncated sequence is a prefix of
the accepted one), never goes below `min_size`, reduces the included
count to exactly `min (max k min_size) (count)`, and leaves `current()`
serving exactly the first `max k min_size` of the previously served
transitions. -/
theorem C3_observed_consumption [Inhabited T] [Inhabited VT]
    (ops : VTOps VT T) :
    (∀ (it : ObservedIter T) (k : Nat),
      (consumeN k it).seen_counter
        = it.seen_counter + min k it.transitions.length) ∧
    (∀ (t : SequentialValueTree State T VT) (k : Nat),
      check_acceptable ops t none = true →
      t.min_size ≤ bitCount t.included_transitions →
      check_acceptable ops (truncateUnobserved t k) none = true ∧
      t.min_size ≤ bitCount (truncateUnobserved t k).included_transitions ∧
      bitCount (truncateUnobserved t k).included_transitions
        = min (max k t.min_size) (bitCount t.included_transitions) ∧
      current_at ops (truncateUnobserved t k) none
        = (current_at ops t none).take (max k t.min_size)) := by
  constructor
  · intro it k
    induction k generalizing it with
    | zero =>
      show it.seen_counter = it.seen_counter + min 0 it.transitions.length
      omega
    | succ k ih =>
      rcases it with ⟨c, trs⟩
      cases trs with
      | nil =>
        show (consumeN k (ObservedIter.mk c [])).seen_counter
            = c + min (k + 1) (List.length ([] : List T))
        rw [ih]
        show c + min k (0 : Nat) = c + min (k + 1) 0
        omega
      | cons x rest =>
        show (consumeN k (ObservedIter.mk (c + 1) rest)).seen_counter
            = c + min (k + 1) (x :: rest).length
        rw [ih]
        show c + 1 + min k rest.length = c + min (k + 1) (rest.length + 1)
        omega
  · intro t k hchk hmin
    have hc := current_at_none_eq_filterZip ops t
    have hcur : current_at ops (truncateUnobserved t k) none
        = (current_at ops t none).take (max k t.min_size) := by
      show currentAtGo ops
          (keepFirstIncluded (max k t.min_size) t.included_transitions)
          t.transitions none 0 t.acceptable_transitions = _
      rw [currentAtGo_eq_filterZip, List.drop_zero,
        filterZip_keepFirstIncluded, hc]
    have hcount : bitCount (truncateUnobserved t k).included_transitions
        = min (max k t.min_size) (bitCount t.included_transitions) := by
      show bitCount
          (keepFirstIncluded (max k t.min_size) t.included_transitions) = _
      rw [bitCount_keepFirstIncluded]
    refine ⟨?_, ?_, hcount, hcur⟩
    · have hrep : replayOk t.preconditions t.next t.initial_state
          (current_at ops t none) = true := hchk
      show replayOk t.preconditions t.next t.initial_state
          (current_at ops (truncateUnobserved t k) none) = true
      rw [hcur]
      exact replayOk_take t.preconditions t.next (current_at ops t none)
        t.initial_state hrep (max k t.min_size)
    · rw [hcount]
      omega


/-! ### Marker life-cycle (C9) and termination (C10) -/

/-- C9 (amended).  Marker evolution split by operation: a `simplify()`
call never sets a marker to `ComplicateRejected` (any slot whose marker
it changes ends up `Current` or `SimplifyRejected`), and a
`complicate()` call never sets a marker to `SimplifyRejected`.  The
original claim's stronger statements — that no operation moves a marker
from one rejected state to the other and that a rejected marker is
reset to `Current` only by the rotation search — are refuted by
`C9_counterexample` below. -/
theorem C9_marker_no_cross_transitions [Inhabited T] [Inhabited VT]
    (ops : VTOps VT T) :
    (∀ (f : Nat) (t : SequentialValueTree State T VT) (b : Bool)
       (u : SequentialValueTree State T VT) (i : Nat),
      simplifyFuel ops f t = some (b, u) →
      markerAt u i ≠ markerAt t i →
      markerAt u i ≠ some ComplicateRejected) ∧
    (∀ (t u : SequentialValueTree State T VT) (b : Bool) (i : Nat),
      complicate ops t = (b, u) →
      markerAt u i ≠ markerAt t i →
      markerAt u i ≠ some SimplifyRejected) := by
  constructor
  · intro f t b u i h hne
    exact runSimplify_marker f SMode.simplifyCall t h i hne
  · intro t u b i h hne
    exact complicate_markerC h i hne

/-- C9, counterexample to the original claim: on the machine `ops9`, a
reachable run moves slot 0's marker from `ComplicateRejected` directly
to `SimplifyRejected` within one `simplify()` call (the shrink loop
only skips `SimplifyRejected` slots, so a `ComplicateRejected` slot is
simplified again and can be re-marked), contradicting both "no
operation moves a marker from one rejected state to the other" and the
no-reset reading for that slot's path. -/
theorem C9_counterexample :
    new_tree ops9 preL nxtL 0 2 [10, 20] 2 = some c9t0 ∧
    simplifyFuel ops9 3 c9t0 = some (true, c9t1) ∧
    complicate ops9 c9t1 = (false, c9t2) ∧
    markerAt c9t2 0 = some ComplicateRejected ∧
    simplifyFuel ops9 6 c9t2 = some (true, c9t3) ∧
    markerAt c9t3 0 = some SimplifyRejected :=
  ⟨rfl, rfl, rfl, rfl, rfl, rfl⟩

theorem C9_witness :
    markerAt c9t3 0 ≠ markerAt c9t2 0 ∧
    markerAt c9t3 0 ≠ some ComplicateRejected :=
  ⟨by decide,
   (C9_marker_no_cross_transitions ops9).1 6 c9t2 true c9t3 0 rfl (by decide)⟩

/-- C10, refuted (code bug).  `simplify()` does not always terminate:
on the tree generated from `opsL` with two slots and `min_size` 2,
slot 1's shrink is accepted but fails Acceptability Replay (marking it
`SimplifyRejected` while leaving it in the shrinkable set), slot 0
refuses to simplify, and the shrink loop — whose guard only tests that
the shrinkable set is non-empty and which skips `SimplifyRejected`
slots without modifying any state — cycles between the two slots
forever.  In the fuel-indexed interpreter the run returns `none`
(never reaches a return) for every fuel bound. -/
theorem C10_simplify_nonterminating :
    new_tree opsL preL nxtL 0 2 [0, 1] 2 = some c10t0 ∧
    ∀ f, runSimplify opsL f SMode.simplifyCall c10t0 = none := by
  refine ⟨rfl, ?_⟩
  have key : ∀ f, runSimplify opsL (f + 2) SMode.shrinkWhile sStar
      = runSimplify opsL f SMode.shrinkWhile sStar := fun _ => rfl
  have aux : ∀ f, runSimplify opsL f SMode.shrinkWhile sStar = none := by
    intro f
    induction f using Nat.twoStepInduction with
    | zero => rfl
    | one => rfl
    | more g ih _ => exact (key g).trans ih
  intro f
  match f with
  | 0 => rfl
  | 1 => rfl
  | 2 => rfl
  | 3 => rfl
  | 4 => rfl
  | 5 => rfl
  | (g + 6) => exact aux g

/-! ### Concrete witnesses -/

theorem C1_witness :
    (1 : Nat) ≤ 1 ∧
    replayOk w1t0.preconditions w1t0.next w1t0.initial_state
      (current_at opsA w1t0 none) = true :=
  ⟨Nat.le_refl 1,
   C1_current_always_replays opsA preT nxtT 0 1 [5] 1 (Nat.le_refl 1)
     (rfl : new_tree opsA preT nxtT 0 1 [5] 1 = some w1t0) Reach.refl⟩

theorem C2_witness :
    (1 : Nat) ≤ 1 ∧
    (1 ≤ bitCount w1t0.included_transitions ∧
     bitCount w1t0.included_transitions ≤ 1) :=
  ⟨Nat.le_refl 1,
   C2_inclusion_count_bounds opsA preT nxtT 0 1 1 [5] 1 (Nat.le_refl 1)
     (Nat.le_refl 1)
     (rfl : new_tree opsA preT nxtT 0 1 [5] 1 = some w1t0) Reach.refl⟩

theorem C3_witness :
    check_acceptable opsA c5t none = true ∧
    c5t.min_size ≤ bitCount c5t.included_transitions ∧
    (consumeN 1 (ObservedIter.mk 0 [7, 8])).seen_counter
      = 0 + min 1 [7, 8].length ∧
    current_at opsA (truncateUnobserved c5t 1) none
      = (current_at opsA c5t none).take (max 1 c5t.min_size) :=
  ⟨rfl, by decide,
   (@C3_observed_consumption Nat Nat Nat _ _ opsA).1 (ObservedIter.mk 0 [7, 8]) 1,
   ((@C3_observed_consumption Nat Nat Nat _ _ opsA).2 c5t 1 rfl (by decide)).2.2.2⟩

theorem C4_witness :
    c5tD.prev_shrink = some (DeleteTransition 1) ∧
    ∃ u, complicate opsA c5tD = (true, u) ∧
      u.included_transitions = bitSet c5tD.included_transitions 1 ∧
      u.shrinkable_transitions = bitSet c5tD.shrinkable_transitions 1 ∧
      u.prev_shrink = none ∧
      complicate opsA u = (false, u) :=
  ⟨rfl, (C4_complicate_undoes_last_move opsA c5tD).2.1 1 rfl⟩

theorem C5_witness :
    c5t.shrink = DeleteTransition 1 ∧
    c5t.min_size < bitCount c5t.included_transitions ∧
    try_simplifyFuel opsA 1 c5t = some (true, c5tD) :=
  ⟨rfl, by decide,
   (C5_delete_phase opsA 0 (rfl : c5t.shrink = DeleteTransition 1)
     (by decide)).2.1 rfl⟩

theorem C6_witness :
    all_rejected c6t = true ∧
    c6t.prev_shrink = some (ShrinkTransition 0) ∧
    simplifyFuel opsA 1 c6t = some (true, cacheCurrent opsA c6t 0) :=
  ⟨rfl, rfl,
   @C6_exhaustion_rotation Nat Nat Nat _ _ opsA c6t 0 0 rfl rfl
     (Nat.le_refl 0)⟩

theorem C7_witness :
    new_tree opsA preT nxtT 0 1 [5] 1 = some w1t0 ∧
    w1t0.shrink = DeleteTransition 0 ∧
    w1t0.prev_shrink = none ∧
    current_at opsA w1t0 none = w1t0.acceptable_transitions.map Prod.snd :=
  ⟨rfl,
   ((C7_generation_postconditions opsA preT nxtT 0 1 [5] 1
     (rfl : new_tree opsA preT nxtT 0 1 [5] 1 = some w1t0)).1).2.2.2.2.2.1,
   ((C7_generation_postconditions opsA preT nxtT 0 1 [5] 1
     (rfl : new_tree opsA preT nxtT 0 1 [5] 1 = some w1t0)).1).2.2.2.2.2.2.1,
   ((C7_generation_postconditions opsA preT nxtT 0 1 [5] 1
     (rfl : new_tree opsA preT nxtT 0 1 [5] 1 = some w1t0)).1).2.2.2.2.2.2.2.2⟩

theorem C8_witness :
    simplifyFuel opsL 4 c8t0 = some (false, c8s1) ∧
    simplifyFuel opsL 3 c8s1 = some (false, c8s1) :=
  ⟨rfl,
   C8_exhaustion_idempotent opsL 4 3
     (rfl : simplifyFuel opsL 4 c8t0 = some (false, c8s1))
     (rfl : simplifyFuel opsL 3 c8s1 = some (false, c8s1))
     3 (Nat.le_refl 3)⟩

end StateMachine
